import Mathlib

/-!
Verification of `exercises/collective/mergesortlist.c`.

A shallow embedding of the user-defined MPI reduction operator `mergesortlist` and of the
list-merge routine `mergelist` it calls, followed by theorems about them.

Modelling conventions.

* A C `int` buffer is a `List Int`; the elements are only compared and copied, never used in
  arithmetic, so no overflow can arise on them.
* A pointer into a buffer (`&invec[ilist*nvec]`) is the suffix of the buffer that starts
  there (`invec.drop (ilist*nvec)`); `p[k]` is then `p[k]?`.
* The three buffers `invec`, `inoutvec` and the scratch `mergevec` are separate lists: the
  operands of an MPI reduction never overlap and the scratch comes fresh from `malloc`.
* A read or a write outside a buffer is undefined behaviour in C; the embedding returns `none`.
* Loop counters and cursors are natural numbers; each of them stays below a bound that is
  itself an `int` (`n`, `nvec`, `nlist`), so counting them cannot overflow.
* The offsets `ilist*nvec` and `ilist*nvec+i` are computed in `int` by the source. Signed
  overflow is undefined behaviour in C; the embedding returns `none` when the value of such an
  expression does not fit an `int`.
* `for (i = 0; i < n; i++) body` is a structural recursion on the number of iterations that
  remain, carrying the current value of `i`.
-/

namespace MergeSortList

/-! ## Constants of the source -/

/-- Number of distinct lists (`#define NUMLIST 3`). -/
def NUMLIST : Nat := 3

/-- Length of each list (`#define N 5`). -/
def N : Nat := 5

/-! ## `mergelist` -/

/-- The variables of `mergelist` that change in its loop: the destination buffer `merge`
and the read cursors `ia` and `ib`. -/
structure MergeState where
  merge : List Int
  ia : Nat
  ib : Nat
deriving DecidableEq

/-- One execution of the body of the loop of `mergelist` at output index `i`:

    if (a[ia] > b[ib]) { merge[i] = a[ia]; ia++; } else { merge[i] = b[ib]; ib++; }

The two reads and the write are checked against the bounds of their buffers. -/
def mergelistBody (a b : List Int) (i : Nat) (s : MergeState) : Option MergeState :=
  match a[s.ia]?, b[s.ib]? with
  | some x, some y =>
    if i < s.merge.length then
      if x > y then
        some { merge := s.merge.set i x, ia := s.ia + 1, ib := s.ib }
      else
        some { merge := s.merge.set i y, ia := s.ia, ib := s.ib + 1 }
    else none
  | _, _ => none

/-- The loop `for (...; i < n; i++)` of `mergelist`, entered with the current value of `i`
and `k = n - i` iterations still to run. -/
def mergelistLoop (a b : List Int) : Nat → Nat → MergeState → Option MergeState
  | 0, _, s => some s
  | k + 1, i, s => (mergelistBody a b i s).bind (mergelistLoop a b k (i + 1))

/-- The run of `mergelist(merge, a, b, n)` up to its return, with the final cursors kept:
`ia = 0; ib = 0; for (i = 0; i < n; i++) ...`. -/
def mergelistRun (merge a b : List Int) (n : Nat) : Option MergeState :=
  mergelistLoop a b n 0 { merge := merge, ia := 0, ib := 0 }

/-- The function `void mergelist(int *merge, int *a, int *b, int n)`: the contents of the
destination buffer when it returns. -/
def mergelist (merge a b : List Int) (n : Nat) : Option (List Int) :=
  (mergelistRun merge a b n).map (fun s => s.merge)

/-! ## `mergesortlist` -/

/-- The buffers `mergesortlist` works on: the two operands and the scratch buffer. -/
structure OpBuffers where
  invec : List Int
  inoutvec : List Int
  mergevec : List Int
deriving DecidableEq

/-- The two operand buffers, as the caller of `mergesortlist` sees them. -/
structure Operands where
  invec : List Int
  inoutvec : List Int
deriving DecidableEq

/-- The value of an `int` expression whose mathematical value is the natural number `x`:
the value itself when it is at most `INT_MAX = 2^31 - 1`, and undefined (signed overflow)
otherwise. -/
def intVal (x : Nat) : Option Nat := if x < 2 ^ 31 then some x else none

/-- One execution of `inoutvec[ilist*nvec+i] = mergevec[i];` with `off = ilist*nvec`, a
product that has already been found to fit an `int`. The sum `ilist*nvec+i` is an `int`
expression too. -/
def copyBody (off i : Nat) (s : OpBuffers) : Option OpBuffers :=
  match intVal (off + i), s.mergevec[i]? with
  | some idx, some v =>
    if idx < s.inoutvec.length then
      some { s with inoutvec := s.inoutvec.set idx v }
    else none
  | _, _ => none

/-- The inner loop `for (i=0; i < nvec; i++)` of `mergesortlist`, entered with the current
value of `i` and `k = nvec - i` iterations still to run. -/
def copyLoop (off : Nat) : Nat → Nat → OpBuffers → Option OpBuffers
  | 0, _, s => some s
  | k + 1, i, s => (copyBody off i s).bind (copyLoop off k (i + 1))

/-- One execution of the body of the outer loop of `mergesortlist`:

    mergelist(mergevec, &invec[ilist*nvec], &inoutvec[ilist*nvec], nvec);
    for (i=0; i < nvec; i++) inoutvec[ilist*nvec+i] = mergevec[i];

The product `ilist*nvec` is an `int` expression. -/
def mergesortlistBody (nvec ilist : Nat) (s : OpBuffers) : Option OpBuffers :=
  (intVal (ilist * nvec)).bind (fun off =>
    (mergelist s.mergevec (s.invec.drop off) (s.inoutvec.drop off) nvec).bind
      (fun m => copyLoop off nvec 0 { s with mergevec := m }))

/-- The outer loop `for (ilist=0; ilist < nlist; ilist++)` of `mergesortlist`, entered with
the current value of `ilist` and `k = nlist - ilist` iterations still to run. -/
def mergesortlistLoop (nvec : Nat) : Nat → Nat → OpBuffers → Option OpBuffers
  | 0, _, s => some s
  | k + 1, ilist, s => (mergesortlistBody nvec ilist s).bind (mergesortlistLoop nvec k (ilist + 1))

/-- The value an `int` takes when a wider integer is stored in it (two's complement, 32 bits). -/
def toInt32 (x : Int) : Int := (x + 2 ^ 31) % 2 ^ 32 - 2 ^ 31

/-- The statement `nvec = listextent/intextent;`: C division truncates toward zero and the
quotient is stored in an `int`. A zero divisor is undefined behaviour. -/
def nvecOf (listextent intextent : Int) : Option Int :=
  if intextent = 0 then none else some (toInt32 (Int.tdiv listextent intextent))

/-- The block `malloc(nvec*sizeof(int))` returns: `nvec` cells of indeterminate contents,
given by `junk`. -/
def malloc (nvec : Nat) (junk : Nat → Int) : List Int := (List.range nvec).map junk

/-- The function `void mergesortlist(void *vinvec, void *vinoutvec, int *n, MPI_Datatype *type)`.

`n` is the count `*n`; `intextent` and `listextent` are the extents that
`MPI_Type_get_extent` reports for `MPI_INT` and for `*type`; `junk` is what the freshly
allocated scratch buffer holds. The result is the pair of operand buffers on return (the
scratch buffer is freed). A negative `nvec` makes the source ask `malloc` for a wrapped size
and form pointers before its operands; the embedding returns `none` there. A count `*n` that
is not positive runs the outer loop zero times. -/
def mergesortlist (ops : Operands) (n : Int) (intextent listextent : Int) (junk : Nat → Int) :
    Option Operands :=
  let nlist := n
  match nvecOf listextent intextent with
  | none => none
  | some nvec =>
    if nvec < 0 then none
    else
      let mergevec := malloc nvec.toNat junk
      (mergesortlistLoop nvec.toNat nlist.toNat 0
        { invec := ops.invec, inoutvec := ops.inoutvec, mergevec := mergevec }).map
        (fun s => { invec := s.invec, inoutvec := s.inoutvec })

/-! ## The demonstration in `main` -/

/-- The array `mysortedlist[NUMLIST][N]` of the process `rank` in a group of `size`
processes, in memory order (row `ilist`, column `i`):
`mysortedlist[ilist][i] = rank+size*(N-i-1) + 100*ilist`. -/
def mysortedlist (rank size : Int) : List Int :=
  (List.range NUMLIST).flatMap (fun ilist =>
    (List.range N).map (fun i => rank + size * ((N : Int) - (i : Int) - 1) + 100 * (ilist : Int)))

/-- One application of the reduction operator as the call
`MPI_Reduce(mysortedlist, sortedlist, NUMLIST, MPI_LIST, MPI_MERGELIST, 0, comm)` makes it:
the count is `NUMLIST`, the datatype is `MPI_LIST`, which `MPI_Type_contiguous(N, MPI_INT, ...)`
builds and whose extent is therefore `N * intextent`, the first operand is `invec` and the
second is `inoutvec`, whose contents on return are the combined value. -/
def combine (intextent : Int) (junk : Nat → Int) (x y : List Int) : Option (List Int) :=
  (mergesortlist { invec := x, inoutvec := y } (NUMLIST : Int) intextent ((N : Int) * intextent)
    junk).map (fun res => res.inoutvec)

/-! ## Specification-side definitions -/

/-- The classic two-way merge of two whole sequences with the comparison of `mergelist`
(`x > y` draws from the first, otherwise from the second); once one sequence is exhausted
the rest of the other is copied. -/
def classicMerge : List Int → List Int → List Int
  | [], b => b
  | x :: as, [] => x :: as
  | x :: as, y :: bs =>
    if x > y then x :: classicMerge as (y :: bs) else y :: classicMerge (x :: as) bs
termination_by a b => a.length + b.length

/-- The descending sort of a sequence of integers. -/
def sortDesc (l : List Int) : List Int := l.insertionSort (fun x y => x ≥ y)

/-- The `len` cells of a buffer that start at offset `off`. -/
def slice (buf : List Int) (off len : Nat) : List Int := (buf.drop off).take len

/-- What the list at index `k` of the bundle is to become: the first `nvec` elements of the
classic merge of list `k` of `invec` and list `k` of `inoutvec`. -/
def mergedSlice (invec inoutvec : List Int) (nvec k : Nat) : List Int :=
  (classicMerge (slice invec (k * nvec) nvec) (slice inoutvec (k * nvec) nvec)).take nvec

/-- A sequence with the multiplicity of each element doubled: `[x, y]` becomes
`[x, x, y, y]`. -/
def double : List Int → List Int
  | [] => []
  | x :: xs => x :: x :: double xs

/-- Whether `r` is an interleave of `as` and `bs`: every element of `r` is the next unused
element of `as` or the next unused element of `bs`, and both are used up. -/
def interleaves : List Int → List Int → List Int → Bool
  | as, bs, [] => as.isEmpty && bs.isEmpty
  | as, bs, z :: r =>
    (match as with
      | x :: as1 => x == z && interleaves as1 bs r
      | [] => false) ||
    (match bs with
      | y :: bs1 => y == z && interleaves as bs1 r
      | [] => false)

/-! ## Facts about the classic merge -/

theorem classicMerge_nil_left (b : List Int) : classicMerge [] b = b := by
  simp [classicMerge]

theorem classicMerge_nil_right (a : List Int) : classicMerge a [] = a := by
  cases a <;> simp [classicMerge]

theorem classicMerge_cons_cons (x y : Int) (as bs : List Int) :
    classicMerge (x :: as) (y :: bs) =
      if x > y then x :: classicMerge as (y :: bs) else y :: classicMerge (x :: as) bs := by
  simp [classicMerge]

theorem classicMerge_perm : ∀ a b : List Int, (classicMerge a b).Perm (a ++ b)
  | [], b => by simp [classicMerge_nil_left]
  | x :: as, [] => by simp [classicMerge_nil_right]
  | x :: as, y :: bs => by
    rw [classicMerge_cons_cons]
    split
    · exact (classicMerge_perm as (y :: bs)).cons x
    · have h := (classicMerge_perm (x :: as) bs).cons y
      exact h.trans (List.perm_middle.symm)
termination_by a b => a.length + b.length

theorem classicMerge_length (a b : List Int) :
    (classicMerge a b).length = a.length + b.length := by
  simpa using (classicMerge_perm a b).length_eq

theorem classicMerge_sorted : ∀ a b : List Int,
    a.Sorted (fun x y => x ≥ y) → b.Sorted (fun x y => x ≥ y) →
    (classicMerge a b).Sorted (fun x y => x ≥ y)
  | [], b, _, hb => by simpa [classicMerge_nil_left] using hb
  | x :: as, [], ha, _ => by simpa [classicMerge_nil_right] using ha
  | x :: as, y :: bs, ha, hb => by
    rw [classicMerge_cons_cons]
    have ha' := List.sorted_cons.mp ha
    have hb' := List.sorted_cons.mp hb
    split
    · rename_i hxy
      refine List.sorted_cons.mpr ⟨?_, classicMerge_sorted as (y :: bs) ha'.2 hb⟩
      intro z hz
      rcases List.mem_append.mp ((classicMerge_perm as (y :: bs)).mem_iff.mp hz) with h | h
      · exact ha'.1 z h
      · rcases List.mem_cons.mp h with h | h
        · subst h; exact le_of_lt hxy
        · exact le_trans (hb'.1 z h) (le_of_lt hxy)
    · rename_i hxy
      have hyx : x ≤ y := not_lt.mp hxy
      refine List.sorted_cons.mpr ⟨?_, classicMerge_sorted (x :: as) bs ha hb'.2⟩
      intro z hz
      rcases List.mem_append.mp ((classicMerge_perm (x :: as) bs).mem_iff.mp hz) with h | h
      · rcases List.mem_cons.mp h with h | h
        · subst h; exact hyx
        · exact le_trans (ha'.1 z h) hyx
      · exact hb'.1 z h
termination_by a b => a.length + b.length

theorem sortDesc_sorted (l : List Int) : (sortDesc l).Sorted (fun x y => x ≥ y) :=
  List.sorted_insertionSort (fun x y : Int => x ≥ y) l

theorem sortDesc_perm (l : List Int) : (sortDesc l).Perm l :=
  List.perm_insertionSort (fun x y : Int => x ≥ y) l

theorem eq_sortDesc_of_perm_of_sorted {l m : List Int} (hp : l.Perm m)
    (hs : l.Sorted (fun x y => x ≥ y)) : l = sortDesc m :=
  List.eq_of_perm_of_sorted (hp.trans (sortDesc_perm m).symm) hs (sortDesc_sorted m)

theorem sortDesc_congr {l m : List Int} (hp : l.Perm m) : sortDesc l = sortDesc m :=
  eq_sortDesc_of_perm_of_sorted ((sortDesc_perm l).trans hp) (sortDesc_sorted l)

theorem classicMerge_eq_sortDesc (a b : List Int)
    (ha : a.Sorted (fun x y => x ≥ y)) (hb : b.Sorted (fun x y => x ≥ y)) :
    classicMerge a b = sortDesc (a ++ b) :=
  eq_sortDesc_of_perm_of_sorted (classicMerge_perm a b) (classicMerge_sorted a b ha hb)

/-- The first `n` elements of a classic merge depend on the first `n` elements of each
input only. -/
theorem take_classicMerge_take : ∀ (n p q : Nat) (a b : List Int), n ≤ p → n ≤ q →
    (classicMerge (a.take p) (b.take q)).take n = (classicMerge a b).take n
  | 0, _, _, _, _, _, _ => by simp
  | n + 1, 0, _, _, _, hp, _ => by omega
  | n + 1, _ + 1, 0, _, _, _, hq => by omega
  | n + 1, p + 1, q + 1, [], b, _, hq => by
    simp only [List.take_nil, classicMerge_nil_left, List.take_take]
    congr 1; omega
  | n + 1, p + 1, q + 1, x :: as, [], hp, _ => by
    simp only [List.take_nil, classicMerge_nil_right, List.take_take]
    congr 1; omega
  | n + 1, p + 1, q + 1, x :: as, y :: bs, hp, hq => by
    simp only [List.take_succ_cons, classicMerge_cons_cons]
    split
    · have h := take_classicMerge_take n p (q + 1) as (y :: bs) (by omega) (by omega)
      simp only [List.take_succ_cons] at h ⊢
      rw [h]
    · have h := take_classicMerge_take n (p + 1) q (x :: as) bs (by omega) (by omega)
      simp only [List.take_succ_cons] at h ⊢
      rw [h]

/-! ## The loop of `mergelist` -/

theorem set_append_mid (pre post : List Int) (m x : Int) (mid : List Int) :
    (pre ++ (m :: mid) ++ post).set pre.length x = (pre ++ [x]) ++ mid ++ post := by
  induction pre with
  | nil => simp
  | cons p pre ih => simp

/-- Running `k` iterations of the loop of `mergelist` from output index `i`, when each source
still has `k` unread elements and the destination has room: the `k` cells from `i` on receive
the first `k` elements of the classic merge of the unread parts, the other cells of the
destination are untouched, and the cursors advance by `k` in total. -/
theorem mergelistLoop_spec : ∀ (k i : Nat) (a b : List Int) (s : MergeState)
    (pre mid post : List Int), s.merge = pre ++ mid ++ post → pre.length = i → mid.length = k →
    s.ia + k ≤ a.length → s.ib + k ≤ b.length →
    ∃ t, mergelistLoop a b k i s = some t ∧
      t.merge = pre ++ (classicMerge (a.drop s.ia) (b.drop s.ib)).take k ++ post ∧
      t.ia + t.ib = s.ia + s.ib + k ∧ s.ia ≤ t.ia ∧ s.ib ≤ t.ib
  | 0, i, a, b, s, pre, mid, post, hm, _, hmid, _, _ => by
    have : mid = [] := List.length_eq_zero.mp hmid
    subst this
    exact ⟨s, rfl, by simp [hm], by omega, le_refl _, le_refl _⟩
  | k + 1, i, a, b, s, pre, mid, post, hm, hpre, hmid, ha, hb => by
    have hia : s.ia < a.length := by omega
    have hib : s.ib < b.length := by omega
    obtain ⟨m, mid1, rfl⟩ : ∃ m mid1, mid = m :: mid1 := by
      cases mid with
      | nil => simp at hmid
      | cons m mid1 => exact ⟨m, mid1, rfl⟩
    have hmid1 : mid1.length = k := by simpa using hmid
    have hi : i < s.merge.length := by
      rw [hm]; simp; omega
    have hda : a.drop s.ia = a[s.ia] :: a.drop (s.ia + 1) := List.drop_eq_getElem_cons hia
    have hdb : b.drop s.ib = b[s.ib] :: b.drop (s.ib + 1) := List.drop_eq_getElem_cons hib
    by_cases hxy : a[s.ia] > b[s.ib]
    · have hbody : mergelistBody a b i s =
          some { merge := s.merge.set i a[s.ia], ia := s.ia + 1, ib := s.ib } := by
        simp [mergelistBody, List.getElem?_eq_getElem hia, List.getElem?_eq_getElem hib, hi, hxy]
      have hset : s.merge.set i a[s.ia] = (pre ++ [a[s.ia]]) ++ mid1 ++ post := by
        rw [hm, ← hpre]; exact set_append_mid pre post m _ mid1
      obtain ⟨t, ht, htm, hsum, hta, htb⟩ := mergelistLoop_spec k (i + 1) a b
        { merge := s.merge.set i a[s.ia], ia := s.ia + 1, ib := s.ib }
        (pre ++ [a[s.ia]]) mid1 post hset (by simp [hpre]) hmid1
        (by simp only; omega) (by simp only; omega)
      refine ⟨t, ?_, ?_, ?_, ?_, ?_⟩
      · simp [mergelistLoop, hbody, ht]
      · rw [htm, hda, hdb, classicMerge_cons_cons, if_pos hxy]
        simp
      · simp only at hsum; omega
      · simp only at hta; omega
      · simpa using htb
    · have hbody : mergelistBody a b i s =
          some { merge := s.merge.set i b[s.ib], ia := s.ia, ib := s.ib + 1 } := by
        simp [mergelistBody, List.getElem?_eq_getElem hia, List.getElem?_eq_getElem hib, hi, hxy]
      have hset : s.merge.set i b[s.ib] = (pre ++ [b[s.ib]]) ++ mid1 ++ post := by
        rw [hm, ← hpre]; exact set_append_mid pre post m _ mid1
      obtain ⟨t, ht, htm, hsum, hta, htb⟩ := mergelistLoop_spec k (i + 1) a b
        { merge := s.merge.set i b[s.ib], ia := s.ia, ib := s.ib + 1 }
        (pre ++ [b[s.ib]]) mid1 post hset (by simp [hpre]) hmid1
        (by simp only; omega) (by simp only; omega)
      refine ⟨t, ?_, ?_, ?_, ?_, ?_⟩
      · simp [mergelistLoop, hbody, ht]
      · rw [htm, hda, hdb, classicMerge_cons_cons, if_neg hxy]
        simp
      · simp only at hsum; omega
      · simpa using hta
      · simp only at htb; omega

/-- On sources that hold at least `n` elements and a destination of exactly `n` cells,
`mergelist` returns the first `n` elements of the classic merge of the sources. -/
theorem mergelist_eq_take_classicMerge (d a b : List Int) (n : Nat)
    (hd : d.length = n) (ha : n ≤ a.length) (hb : n ≤ b.length) :
    mergelist d a b n = some ((classicMerge a b).take n) := by
  obtain ⟨t, ht, htm, _, _, _⟩ := mergelistLoop_spec n 0 a b
    { merge := d, ia := 0, ib := 0 } [] d [] (by simp) rfl hd (by simpa using ha)
    (by simpa using hb)
  simp [mergelist, mergelistRun, ht, htm]

/-- On sources and a destination that hold at least `n` elements, `mergelist` overwrites
the first `n` cells with the classic merge of the first `n` elements of each source and
leaves the rest of the destination as it was. -/
theorem mergelist_eq_of_le (d a b : List Int) (n : Nat)
    (hd : n ≤ d.length) (ha : n ≤ a.length) (hb : n ≤ b.length) :
    mergelist d a b n =
      some ((classicMerge (a.take n) (b.take n)).take n ++ d.drop n) := by
  obtain ⟨t, ht, htm, _, _, _⟩ := mergelistLoop_spec n 0 a b
    { merge := d, ia := 0, ib := 0 } [] (d.take n) (d.drop n) (by simp) rfl
    (by simp [hd]) (by simpa using ha) (by simpa using hb)
  simp [mergelist, mergelistRun, ht, htm, take_classicMerge_take n n n a b (le_refl _) (le_refl _)]

/-- On descending sources of length `n`, `mergelist` returns the first `n` elements of the
descending sort of the two sources together. -/
theorem mergelist_sorted_eq (d a b : List Int) (n : Nat)
    (hd : d.length = n) (ha : a.length = n) (hb : b.length = n)
    (hsa : a.Sorted (fun x y => x ≥ y)) (hsb : b.Sorted (fun x y => x ≥ y)) :
    mergelist d a b n = some ((sortDesc (a ++ b)).take n) := by
  rw [mergelist_eq_take_classicMerge d a b n hd (by omega) (by omega),
    classicMerge_eq_sortDesc a b hsa hsb]

/-! ## The loops of `mergesortlist` -/

theorem slice_length (buf : List Int) (off len : Nat) (h : off + len ≤ buf.length) :
    (slice buf off len).length = len := by
  simp [slice]; omega

theorem slice_getElem? (buf : List Int) (off len i : Nat) :
    (slice buf off len)[i]? = if i < len then buf[off + i]? else none := by
  simp [slice, List.getElem?_take]

theorem slice_congr (u v : List Int) (off len : Nat)
    (h : ∀ idx, off ≤ idx → idx < off + len → u[idx]? = v[idx]?) :
    slice u off len = slice v off len := by
  apply List.ext_getElem?
  intro i
  rw [slice_getElem?, slice_getElem?]
  split
  · exact h (off + i) (by omega) (by omega)
  · rfl

theorem slice_append_mid (pre mid post : List Int) :
    slice (pre ++ mid ++ post) pre.length mid.length = mid := by
  simp [slice]

theorem intVal_of_lt (x : Nat) (h : x < 2 ^ 31) : intVal x = some x := by
  unfold intVal
  rw [if_pos h]

theorem intVal_of_ge (x : Nat) (h : 2 ^ 31 ≤ x) : intVal x = none := by
  unfold intVal
  rw [if_neg (Nat.not_lt.mpr h)]

/-- The offset of list `ilist` fits an `int` when the lists up to and including it hold at
most `2^31` cells. -/
theorem offset_lt (ilist nvec : Nat) (h : (ilist + 1) * nvec ≤ 2 ^ 31) :
    ilist * nvec < 2 ^ 31 := by
  have hexp : (ilist + 1) * nvec = ilist * nvec + nvec := by ring
  rcases Nat.eq_zero_or_pos nvec with h0 | h0
  · subst h0; simp
  · omega

/-- Running `k` iterations of the copy loop from index `i`: the `k` cells of `inoutvec` from
`off + i` on receive the `k` cells of `mergevec` from `i` on, and nothing else changes. -/
theorem copyLoop_spec : ∀ (k i off : Nat) (s : OpBuffers) (pre mid post : List Int),
    s.inoutvec = pre ++ mid ++ post → pre.length = off + i → mid.length = k →
    i + k ≤ s.mergevec.length → off + i + k ≤ 2 ^ 31 →
    copyLoop off k i s =
      some { s with inoutvec := pre ++ (s.mergevec.drop i).take k ++ post }
  | 0, i, off, s, pre, mid, post, hm, _, hmid, _, _ => by
    have : mid = [] := List.length_eq_zero.mp hmid
    subst this
    cases s
    simp_all [copyLoop]
  | k + 1, i, off, s, pre, mid, post, hm, hpre, hmid, hmv, hbd => by
    have hi : i < s.mergevec.length := by omega
    have hiv : intVal (off + i) = some (off + i) := intVal_of_lt _ (by omega)
    obtain ⟨m, mid1, rfl⟩ : ∃ m mid1, mid = m :: mid1 := by
      cases mid with
      | nil => simp at hmid
      | cons m mid1 => exact ⟨m, mid1, rfl⟩
    have hmid1 : mid1.length = k := by simpa using hmid
    have hlt : off + i < s.inoutvec.length := by
      rw [hm]; simp; omega
    have hset : s.inoutvec.set (off + i) s.mergevec[i] =
        (pre ++ [s.mergevec[i]]) ++ mid1 ++ post := by
      rw [hm, ← hpre]; exact set_append_mid pre post m _ mid1
    have hbody : copyBody off i s =
        some { s with inoutvec := s.inoutvec.set (off + i) s.mergevec[i] } := by
      simp [copyBody, hiv, List.getElem?_eq_getElem hi, hlt]
    have ih := copyLoop_spec k (i + 1) off
      { s with inoutvec := s.inoutvec.set (off + i) s.mergevec[i] }
      (pre ++ [s.mergevec[i]]) mid1 post hset (by simp [hpre]; omega) hmid1
      (by simp only; omega) (by omega)
    simp only [copyLoop, hbody, Option.some_bind]
    have htk : (s.mergevec.drop i).take (k + 1) =
        s.mergevec[i] :: (s.mergevec.drop (i + 1)).take k := by
      rw [List.drop_eq_getElem_cons hi, List.take_succ_cons]
    rw [ih, htk]
    simp

/-- One pass of the outer loop of `mergesortlist` on list `ilist`, when the scratch buffer
has `nvec` cells and both operands reach to the end of list `ilist`. -/
theorem mergesortlistBody_spec (nvec ilist : Nat) (s : OpBuffers)
    (hmv : s.mergevec.length = nvec)
    (hin : (ilist + 1) * nvec ≤ s.invec.length)
    (hio : (ilist + 1) * nvec ≤ s.inoutvec.length)
    (hbd : (ilist + 1) * nvec ≤ 2 ^ 31) :
    mergesortlistBody nvec ilist s =
      some { invec := s.invec,
             inoutvec := s.inoutvec.take (ilist * nvec) ++ mergedSlice s.invec s.inoutvec nvec ilist
               ++ s.inoutvec.drop (ilist * nvec + nvec),
             mergevec := mergedSlice s.invec s.inoutvec nvec ilist } := by
  have hexp : (ilist + 1) * nvec = ilist * nvec + nvec := by ring
  have hM : (mergedSlice s.invec s.inoutvec nvec ilist).length = nvec := by
    simp only [mergedSlice, List.length_take, classicMerge_length]
    rw [slice_length _ _ _ (by omega), slice_length _ _ _ (by omega)]
    omega
  have hml : mergelist s.mergevec (s.invec.drop (ilist * nvec)) (s.inoutvec.drop (ilist * nvec))
      nvec = some (mergedSlice s.invec s.inoutvec nvec ilist) := by
    rw [mergelist_eq_take_classicMerge _ _ _ _ hmv (by simp; omega) (by simp; omega)]
    simp only [mergedSlice, slice]
    rw [take_classicMerge_take nvec nvec nvec _ _ (le_refl _) (le_refl _)]
  have hsplit : s.inoutvec = s.inoutvec.take (ilist * nvec) ++
      slice s.inoutvec (ilist * nvec) nvec ++ s.inoutvec.drop (ilist * nvec + nvec) := by
    simp only [slice]
    rw [List.append_assoc, ← List.drop_drop, List.take_append_drop, List.take_append_drop]
  have hcopy := copyLoop_spec nvec 0 (ilist * nvec)
    { s with mergevec := mergedSlice s.invec s.inoutvec nvec ilist }
    (s.inoutvec.take (ilist * nvec)) (slice s.inoutvec (ilist * nvec) nvec)
    (s.inoutvec.drop (ilist * nvec + nvec)) hsplit (by simp; omega)
    (slice_length _ _ _ (by omega)) (by simp only; omega) (by omega)
  simp only [mergesortlistBody, intVal_of_lt _ (offset_lt ilist nvec hbd), hml,
    Option.some_bind]
  rw [hcopy]
  simp [List.take_of_length_le (le_of_eq hM)]

theorem mergedSlice_length (invec inoutvec : List Int) (nvec k : Nat)
    (hin : (k + 1) * nvec ≤ invec.length) (hio : (k + 1) * nvec ≤ inoutvec.length) :
    (mergedSlice invec inoutvec nvec k).length = nvec := by
  have hexp : (k + 1) * nvec = k * nvec + nvec := by ring
  simp only [mergedSlice, List.length_take, classicMerge_length]
  rw [slice_length _ _ _ (by omega), slice_length _ _ _ (by omega)]
  omega

theorem mergedSlice_congr (invec u v : List Int) (nvec k : Nat)
    (h : slice u (k * nvec) nvec = slice v (k * nvec) nvec) :
    mergedSlice invec u nvec k = mergedSlice invec v nvec k := by
  simp only [mergedSlice, h]

theorem splice_length (io m : List Int) (off nvec : Nat) (hm : m.length = nvec)
    (h : off + nvec ≤ io.length) :
    (io.take off ++ m ++ io.drop (off + nvec)).length = io.length := by
  simp; omega

theorem splice_getElem? (io m : List Int) (off nvec idx : Nat) (hm : m.length = nvec)
    (h : off + nvec ≤ io.length) (hidx : idx < off ∨ off + nvec ≤ idx) :
    (io.take off ++ m ++ io.drop (off + nvec))[idx]? = io[idx]? := by
  have hlt : (io.take off).length = off := by simp; omega
  rcases hidx with h1 | h1
  · rw [List.append_assoc, List.getElem?_append_left (by omega), List.getElem?_take_of_lt h1]
  · rw [List.getElem?_append_right (by simp; omega), List.getElem?_drop]
    congr 1
    simp
    omega

theorem splice_slice (io m : List Int) (off nvec : Nat) (hm : m.length = nvec)
    (h : off + nvec ≤ io.length) :
    slice (io.take off ++ m ++ io.drop (off + nvec)) off nvec = m := by
  have hlt : (io.take off).length = off := by simp; omega
  have := slice_append_mid (io.take off) m (io.drop (off + nvec))
  rwa [hlt, hm] at this

/-- Running `k` passes of the outer loop of `mergesortlist` from list `ilist`: the operand
`invec` is as before, `inoutvec` keeps its length, each of the lists `ilist .. ilist+k-1` of
`inoutvec` has become the merge of the two lists at that index, and no cell of `inoutvec`
outside those lists has changed. -/
theorem mergesortlistLoop_spec : ∀ (k ilist nvec : Nat) (s : OpBuffers),
    s.mergevec.length = nvec →
    (ilist + k) * nvec ≤ s.invec.length → (ilist + k) * nvec ≤ s.inoutvec.length →
    (ilist + k) * nvec ≤ 2 ^ 31 →
    ∃ t, mergesortlistLoop nvec k ilist s = some t ∧ t.invec = s.invec ∧
      t.inoutvec.length = s.inoutvec.length ∧
      (∀ j, ilist ≤ j → j < ilist + k →
        slice t.inoutvec (j * nvec) nvec = mergedSlice s.invec s.inoutvec nvec j) ∧
      (∀ idx, idx < ilist * nvec ∨ (ilist + k) * nvec ≤ idx →
        t.inoutvec[idx]? = s.inoutvec[idx]?)
  | 0, ilist, nvec, s, _, _, _, _ =>
    ⟨s, rfl, rfl, rfl, fun j h1 h2 => by omega, fun _ _ => rfl⟩
  | k + 1, ilist, nvec, s, hmv, hin, hio, hbd => by
    have hexp : (ilist + (k + 1)) * nvec = (ilist + 1) * nvec + k * nvec := by ring
    have hexp1 : (ilist + 1) * nvec = ilist * nvec + nvec := by ring
    have hexp2 : (ilist + 1 + k) * nvec = (ilist + 1) * nvec + k * nvec := by ring
    have hin1 : (ilist + 1) * nvec ≤ s.invec.length := by omega
    have hio1 : (ilist + 1) * nvec ≤ s.inoutvec.length := by omega
    have hM := mergedSlice_length s.invec s.inoutvec nvec ilist hin1 hio1
    have hbody := mergesortlistBody_spec nvec ilist s hmv hin1 hio1 (by omega)
    have hlen := splice_length s.inoutvec _ (ilist * nvec) nvec hM (by omega)
    obtain ⟨t, ht, htin, htlen, htsl, htun⟩ := mergesortlistLoop_spec k (ilist + 1) nvec
      { invec := s.invec,
        inoutvec := s.inoutvec.take (ilist * nvec) ++ mergedSlice s.invec s.inoutvec nvec ilist
          ++ s.inoutvec.drop (ilist * nvec + nvec),
        mergevec := mergedSlice s.invec s.inoutvec nvec ilist }
      hM (by simp only; omega) (by simp only; rw [hlen]; omega) (by omega)
    simp only at htin htlen htsl htun
    refine ⟨t, ?_, htin, htlen.trans hlen, ?_, ?_⟩
    · simp only [mergesortlistLoop, hbody, Option.some_bind, ht]
    · intro j h1 h2
      rcases Nat.eq_or_lt_of_le h1 with h | h
      · subst h
        rw [slice_congr t.inoutvec _ (ilist * nvec) nvec
          (fun idx _ h4 => htun idx (Or.inl (by omega)))]
        exact splice_slice s.inoutvec _ (ilist * nvec) nvec hM (by omega)
      · rw [htsl j (by omega) (by omega)]
        have hj : (ilist + 1) * nvec ≤ j * nvec := Nat.mul_le_mul_right nvec (by omega)
        exact mergedSlice_congr _ _ _ _ _ (slice_congr _ s.inoutvec (j * nvec) nvec
          (fun idx h3 _ => splice_getElem? s.inoutvec _ (ilist * nvec) nvec idx hM (by omega)
            (Or.inr (by omega))))
    · intro idx hidx
      rw [htun idx (by omega)]
      exact splice_getElem? s.inoutvec _ (ilist * nvec) nvec idx hM (by omega) (by omega)

theorem malloc_length (nvec : Nat) (junk : Nat → Int) : (malloc nvec junk).length = nvec := by
  simp [malloc]

/-- The whole of `mergesortlist`, when the list length derived from the extents is `nvec`
and both operands hold the `*n` lists the call covers: the call returns, `invec` is as
before, `inoutvec` keeps its length, each of its first `*n` lists has become the merge of the
two lists at that index, and its cells after them are unchanged. -/
theorem mergesortlist_spec (ops : Operands) (n intextent listextent : Int) (junk : Nat → Int)
    (nvec : Nat) (hnvec : nvecOf listextent intextent = some (nvec : Int))
    (hin : n.toNat * nvec ≤ ops.invec.length) (hio : n.toNat * nvec ≤ ops.inoutvec.length)
    (hbd : n.toNat * nvec ≤ 2 ^ 31) :
    ∃ res, mergesortlist ops n intextent listextent junk = some res ∧
      res.invec = ops.invec ∧ res.inoutvec.length = ops.inoutvec.length ∧
      (∀ k, k < n.toNat →
        slice res.inoutvec (k * nvec) nvec = mergedSlice ops.invec ops.inoutvec nvec k) ∧
      (∀ idx, n.toNat * nvec ≤ idx → res.inoutvec[idx]? = ops.inoutvec[idx]?) := by
  obtain ⟨t, ht, htin, htlen, htsl, htun⟩ := mergesortlistLoop_spec n.toNat 0 nvec
    { invec := ops.invec, inoutvec := ops.inoutvec, mergevec := malloc nvec junk }
    (malloc_length nvec junk) (by simpa using hin) (by simpa using hio) (by simpa using hbd)
  simp only at htin htlen htsl htun
  refine ⟨{ invec := t.invec, inoutvec := t.inoutvec }, ?_, htin, htlen, ?_, ?_⟩
  · simp [mergesortlist, hnvec, ht]
  · intro k hk
    exact htsl k (Nat.zero_le _) (by simpa using hk)
  · intro idx hidx
    exact htun idx (Or.inr (by simpa using hidx))

theorem mergesortlistBody_overflow (nvec ilist : Nat) (s : OpBuffers)
    (h : 2 ^ 31 ≤ ilist * nvec) : mergesortlistBody nvec ilist s = none := by
  simp only [mergesortlistBody, intVal_of_ge _ h, Option.none_bind]

/-- The outer loop of `mergesortlist` has no defined result when the offset of one of the
lists it is to merge does not fit an `int`. -/
theorem mergesortlistLoop_overflow : ∀ (k ilist nvec : Nat) (s : OpBuffers) (j : Nat),
    ilist ≤ j → j < ilist + k → 2 ^ 31 ≤ j * nvec → mergesortlistLoop nvec k ilist s = none
  | 0, ilist, nvec, s, j, h1, h2, _ => by omega
  | k + 1, ilist, nvec, s, j, h1, h2, hov => by
    simp only [mergesortlistLoop]
    cases hb : mergesortlistBody nvec ilist s with
    | none => rfl
    | some s1 =>
      rw [Option.some_bind]
      rcases Nat.eq_or_lt_of_le h1 with h | h
      · subst h
        rw [mergesortlistBody_overflow nvec ilist s hov] at hb
        cases hb
      · exact mergesortlistLoop_overflow k (ilist + 1) nvec s1 j h (by omega) hov

/-- The call of `mergesortlist` has no defined result when the offset `j*nvec` of one of the
`*n` lists does not fit an `int`. -/
theorem mergesortlist_overflow (ops : Operands) (n intextent listextent : Int)
    (junk : Nat → Int) (nvec : Nat) (hnvec : nvecOf listextent intextent = some (nvec : Int))
    (j : Nat) (hj : j < n.toNat) (hov : 2 ^ 31 ≤ j * nvec) :
    mergesortlist ops n intextent listextent junk = none := by
  have hl := mergesortlistLoop_overflow n.toNat 0 nvec
    { invec := ops.invec, inoutvec := ops.inoutvec, mergevec := malloc nvec junk } j
    (Nat.zero_le j) (by omega) hov
  simp [mergesortlist, hnvec, hl]

theorem slice_sublist (buf : List Int) (off len : Nat) : (slice buf off len).Sublist buf :=
  (List.take_sublist len _).trans (List.drop_sublist off buf)

theorem replicate_sorted (m : Nat) (v : Int) :
    (List.replicate m v).Sorted (fun x y => x ≥ y) :=
  List.pairwise_replicate.mpr (Or.inr (le_refl v))

/-- The list that `mergesortlist` leaves at index `k` is what `mergelist` computes from the
two lists at that index, for any destination of `nvec` cells. -/
theorem mergelist_slices (d invec inoutvec : List Int) (nvec k : Nat) (hd : d.length = nvec)
    (hin : (k + 1) * nvec ≤ invec.length) (hio : (k + 1) * nvec ≤ inoutvec.length) :
    mergelist d (slice invec (k * nvec) nvec) (slice inoutvec (k * nvec) nvec) nvec =
      some (mergedSlice invec inoutvec nvec k) := by
  have hexp : (k + 1) * nvec = k * nvec + nvec := by ring
  rw [mergelist_eq_take_classicMerge d _ _ nvec hd
    (le_of_eq (slice_length _ _ _ (by omega)).symm)
    (le_of_eq (slice_length _ _ _ (by omega)).symm)]
  rfl

/-! ## `mergelist` on partial results -/

theorem sortDesc_length (l : List Int) : (sortDesc l).length = l.length :=
  List.length_insertionSort (fun x y : Int => x ≥ y) l

theorem sortDesc_of_sorted (l : List Int) (h : l.Sorted (fun x y => x ≥ y)) : sortDesc l = l :=
  List.Sorted.insertionSort_eq h

/-- Merging the `n` largest elements of `X` (first operand) with a descending list `c` of
length `n` gives the `n` largest elements of `X ++ c`. -/
theorem mergelist_topN_left (n : Nat) (d X c : List Int) (hd : d.length = n)
    (hX : n ≤ X.length) (hc : c.length = n) (hsc : c.Sorted (fun x y => x ≥ y)) :
    mergelist d ((sortDesc X).take n) c n = some ((sortDesc (X ++ c)).take n) := by
  rw [mergelist_eq_take_classicMerge d _ c n hd (by simp [sortDesc_length]; omega) (by omega)]
  have h := take_classicMerge_take n n n (sortDesc X) c (le_refl _) (le_refl _)
  rw [List.take_of_length_le (le_of_eq hc)] at h
  rw [h, classicMerge_eq_sortDesc _ _ (sortDesc_sorted X) hsc,
    sortDesc_congr ((sortDesc_perm X).append_right c)]

/-- Merging a descending list `a` of length `n` (first operand) with the `n` largest
elements of `Y` gives the `n` largest elements of `a ++ Y`. -/
theorem mergelist_topN_right (n : Nat) (d a Y : List Int) (hd : d.length = n)
    (ha : a.length = n) (hsa : a.Sorted (fun x y => x ≥ y)) (hY : n ≤ Y.length) :
    mergelist d a ((sortDesc Y).take n) n = some ((sortDesc (a ++ Y)).take n) := by
  rw [mergelist_eq_take_classicMerge d a _ n hd (by omega) (by simp [sortDesc_length]; omega)]
  have h := take_classicMerge_take n n n a (sortDesc Y) (le_refl _) (le_refl _)
  rw [List.take_of_length_le (le_of_eq ha)] at h
  rw [h, classicMerge_eq_sortDesc _ _ hsa (sortDesc_sorted Y),
    sortDesc_congr ((sortDesc_perm Y).append_left a)]

theorem foldlM_mergelist_left (n : Nat) (d : List Int) (hd : d.length = n) :
    ∀ (rest : List (List Int)) (X : List Int), n ≤ X.length →
      (∀ l ∈ rest, l.length = n ∧ l.Sorted (fun x y => x ≥ y)) →
      rest.foldlM (fun acc l => mergelist d acc l n) ((sortDesc X).take n) =
        some ((sortDesc (X ++ rest.flatten)).take n)
  | [], X, _, _ => by simp
  | l :: rest, X, hX, hl => by
    have h1 := hl l (List.mem_cons_self l rest)
    have ih := foldlM_mergelist_left n d hd rest (X ++ l) (by simp; omega)
      (fun m hm => hl m (List.mem_cons_of_mem l hm))
    rw [List.foldlM_cons, mergelist_topN_left n d X l hd hX h1.1 h1.2]
    simpa using ih

theorem foldlM_mergelist_right (n : Nat) (d : List Int) (hd : d.length = n) :
    ∀ (rest : List (List Int)) (X : List Int), n ≤ X.length →
      (∀ l ∈ rest, l.length = n ∧ l.Sorted (fun x y => x ≥ y)) →
      rest.foldlM (fun acc l => mergelist d l acc n) ((sortDesc X).take n) =
        some ((sortDesc (X ++ rest.flatten)).take n)
  | [], X, _, _ => by simp
  | l :: rest, X, hX, hl => by
    have h1 := hl l (List.mem_cons_self l rest)
    have ih := foldlM_mergelist_right n d hd rest (X ++ l) (by simp; omega)
      (fun m hm => hl m (List.mem_cons_of_mem l hm))
    rw [List.foldlM_cons, mergelist_topN_right n d l X hd h1.1 h1.2 hX,
      sortDesc_congr (List.perm_append_comm : (l ++ X).Perm (X ++ l))]
    simpa using ih

/-! ## Doubling -/

theorem double_perm : ∀ a : List Int, (double a).Perm (a ++ a)
  | [] => by simp [double]
  | x :: xs => by
    have h := ((double_perm xs).cons x).cons x
    refine h.trans ?_
    simp only [List.cons_append]
    exact (List.perm_middle.symm).cons x

theorem double_mem (a : List Int) (z : Int) : z ∈ double a ↔ z ∈ a := by
  rw [(double_perm a).mem_iff]; simp

theorem double_sorted : ∀ a : List Int, a.Sorted (fun x y => x ≥ y) →
    (double a).Sorted (fun x y => x ≥ y)
  | [], _ => by simp [double]
  | x :: xs, h => by
    have h1 := List.sorted_cons.mp h
    have ih := double_sorted xs h1.2
    have hx : ∀ z ∈ double xs, x ≥ z := fun z hz => h1.1 z ((double_mem xs z).mp hz)
    refine List.sorted_cons.mpr ⟨?_, List.sorted_cons.mpr ⟨hx, ih⟩⟩
    intro z hz
    rcases List.mem_cons.mp hz with h2 | h2
    · subst h2; exact le_refl _
    · exact hx z h2

theorem double_getElem? : ∀ (a : List Int) (i : Nat), (double a)[i]? = a[i / 2]?
  | [], i => by simp [double]
  | x :: xs, 0 => by simp [double]
  | x :: xs, 1 => by simp [double]
  | x :: xs, i + 2 => by
    have h : (i + 2) / 2 = i / 2 + 1 := by omega
    rw [h]
    simpa [double] using double_getElem? xs i

theorem classicMerge_self (a : List Int) (h : a.Sorted (fun x y => x ≥ y)) :
    classicMerge a a = double a := by
  rw [classicMerge_eq_sortDesc a a h h]
  exact (eq_sortDesc_of_perm_of_sorted (double_perm a) (double_sorted a h)).symm

/-! ## The scratch buffer and the extents -/

/-- The loop of `mergelist` does not depend on what the cells it is about to write hold. -/
theorem mergelistLoop_dest : ∀ (k i : Nat) (a b : List Int) (ia ib : Nat)
    (pre mid1 mid2 post : List Int), pre.length = i → mid1.length = k → mid2.length = k →
    mergelistLoop a b k i { merge := pre ++ mid1 ++ post, ia := ia, ib := ib } =
      mergelistLoop a b k i { merge := pre ++ mid2 ++ post, ia := ia, ib := ib }
  | 0, i, a, b, ia, ib, pre, mid1, mid2, post, _, h1, h2 => by
    rw [List.length_eq_zero.mp h1, List.length_eq_zero.mp h2]
  | k + 1, i, a, b, ia, ib, pre, mid1, mid2, post, hpre, h1, h2 => by
    obtain ⟨m1, t1, rfl⟩ : ∃ m t, mid1 = m :: t := by
      cases mid1 with
      | nil => simp at h1
      | cons m t => exact ⟨m, t, rfl⟩
    obtain ⟨m2, t2, rfl⟩ : ∃ m t, mid2 = m :: t := by
      cases mid2 with
      | nil => simp at h2
      | cons m t => exact ⟨m, t, rfl⟩
    have ht1 : t1.length = k := by simpa using h1
    have ht2 : t2.length = k := by simpa using h2
    have hs1 : ∀ x : Int, (pre ++ (m1 :: t1) ++ post).set i x = (pre ++ [x]) ++ t1 ++ post :=
      fun x => by rw [← hpre]; exact set_append_mid pre post m1 x t1
    have hs2 : ∀ x : Int, (pre ++ (m2 :: t2) ++ post).set i x = (pre ++ [x]) ++ t2 ++ post :=
      fun x => by rw [← hpre]; exact set_append_mid pre post m2 x t2
    have hl1 : i < (pre ++ (m1 :: t1) ++ post).length := by simp; omega
    have hl2 : i < (pre ++ (m2 :: t2) ++ post).length := by simp; omega
    have ih := fun (x : Int) (ia ib : Nat) =>
      mergelistLoop_dest k (i + 1) a b ia ib (pre ++ [x]) t1 t2 post (by simp [hpre]) ht1 ht2
    simp only [mergelistLoop, mergelistBody]
    cases hax : a[ia]? with
    | none => rfl
    | some x =>
      cases hbx : b[ib]? with
      | none => rfl
      | some y =>
        simp only [hl1, hl2, if_true, hs1, hs2]
        by_cases hxy : x > y
        · simp only [hxy, if_true, Option.some_bind]; exact ih x _ _
        · simp only [hxy, if_false, Option.some_bind]; exact ih y _ _

/-- The result of `mergelist` does not depend on what its destination holds on entry, when
the destination has exactly `n` cells. -/
theorem mergelist_dest (d1 d2 a b : List Int) (n : Nat) (h1 : d1.length = n)
    (h2 : d2.length = n) : mergelist d1 a b n = mergelist d2 a b n := by
  have h := mergelistLoop_dest n 0 a b 0 0 [] d1 d2 [] rfl h1 h2
  simp only [List.nil_append, List.append_nil] at h
  simp only [mergelist, mergelistRun, h]

theorem mergesortlistBody_scratch (nvec ilist : Nat) (s1 s2 : OpBuffers)
    (hin : s1.invec = s2.invec) (hio : s1.inoutvec = s2.inoutvec)
    (h1 : s1.mergevec.length = nvec) (h2 : s2.mergevec.length = nvec) :
    mergesortlistBody nvec ilist s1 = mergesortlistBody nvec ilist s2 := by
  simp only [mergesortlistBody, hin, hio]
  cases intVal (ilist * nvec) with
  | none => rfl
  | some off =>
    simp only [Option.some_bind, mergelist_dest s1.mergevec s2.mergevec _ _ nvec h1 h2]

/-- The operands that the outer loop of `mergesortlist` returns do not depend on what the
scratch buffer holds on entry. -/
theorem mergesortlistLoop_scratch (nvec k ilist : Nat) (s1 s2 : OpBuffers)
    (hin : s1.invec = s2.invec) (hio : s1.inoutvec = s2.inoutvec)
    (h1 : s1.mergevec.length = nvec) (h2 : s2.mergevec.length = nvec) :
    (mergesortlistLoop nvec k ilist s1).map
        (fun s => ({ invec := s.invec, inoutvec := s.inoutvec } : Operands)) =
      (mergesortlistLoop nvec k ilist s2).map
        (fun s => ({ invec := s.invec, inoutvec := s.inoutvec } : Operands)) := by
  cases k with
  | zero => simp [mergesortlistLoop, hin, hio]
  | succ k =>
    simp only [mergesortlistLoop, mergesortlistBody_scratch nvec ilist s1 s2 hin hio h1 h2]

theorem toInt32_of_lt (x : Int) (h0 : 0 ≤ x) (h1 : x < 2 ^ 31) : toInt32 x = x := by
  unfold toInt32
  norm_num at h1 ⊢
  omega

/-- A list type of `k` contiguous base units of extent `e > 0` gives `nvec = k`, for `k`
in the range of an `int`. -/
theorem nvecOf_mul (k : Nat) (e : Int) (he : 0 < e) (hk : (k : Int) < 2 ^ 31) :
    nvecOf ((k : Int) * e) e = some (k : Int) := by
  have hne : e ≠ 0 := ne_of_gt he
  simp only [nvecOf, if_neg hne, Int.mul_tdiv_cancel _ hne,
    toInt32_of_lt (k : Int) (Int.ofNat_nonneg k) hk]

/-- The combined value does not depend on the extent of an `int` nor on what the scratch
buffer holds on entry. -/
theorem combine_indep (e : Int) (he : 0 < e) (junk : Nat → Int) (x y : List Int) :
    combine e junk x y = combine 1 (fun _ => 0) x y := by
  have hN : ((N : Nat) : Int) < 2 ^ 31 := by decide
  have h1 := nvecOf_mul N e he hN
  have h2 := nvecOf_mul N 1 one_pos hN
  have hneg : ¬ ((N : Nat) : Int) < 0 := by decide
  have hs := mergesortlistLoop_scratch N NUMLIST 0
    { invec := x, inoutvec := y, mergevec := malloc N junk }
    { invec := x, inoutvec := y, mergevec := malloc N (fun _ => 0) } rfl rfl
    (malloc_length _ _) (malloc_length _ _)
  simp only [combine, mergesortlist, h1, h2, hneg, if_false, Int.toNat_ofNat, hs]

/-! ## Claims about `mergelist` on descending inputs -/

/-- C1: for descending sources `a` and `b` of length `n` and a destination of `n` cells,
`mergelist` leaves in the destination the first `n` elements of the descending sort of
`a ++ b`, where that sort is a descending rearrangement of `a ++ b`. -/
theorem mergelist_top_n (n : Nat) (d a b : List Int)
    (hd : d.length = n) (ha : a.length = n) (hb : b.length = n)
    (hsa : a.Sorted (fun x y => x ≥ y)) (hsb : b.Sorted (fun x y => x ≥ y)) :
    mergelist d a b n = some ((sortDesc (a ++ b)).take n) ∧
      (sortDesc (a ++ b)).Sorted (fun x y => x ≥ y) ∧ (sortDesc (a ++ b)).Perm (a ++ b) :=
  ⟨mergelist_sorted_eq d a b n hd ha hb hsa hsb, sortDesc_sorted _, sortDesc_perm _⟩

theorem mergelist_top_n_witness :
    mergelist [9, 9, 9] [5, 3, 1] [4, 4, 0] 3 = some ((sortDesc ([5, 3, 1] ++ [4, 4, 0])).take 3) ∧
      (sortDesc ([5, 3, 1] ++ [4, 4, 0])).Sorted (fun x y => x ≥ y) ∧
      (sortDesc ([5, 3, 1] ++ [4, 4, 0])).Perm ([5, 3, 1] ++ [4, 4, 0]) :=
  mergelist_top_n 3 [9, 9, 9] [5, 3, 1] [4, 4, 0] rfl rfl rfl (by decide) (by decide)

/-- C2: for descending sources `a` and `b` of length `n`, the result of `mergelist` has
length `n` and is descending: each element is at least the next one. -/
theorem mergelist_descending (n : Nat) (d a b : List Int)
    (hd : d.length = n) (ha : a.length = n) (hb : b.length = n)
    (hsa : a.Sorted (fun x y => x ≥ y)) (hsb : b.Sorted (fun x y => x ≥ y)) :
    ∃ r, mergelist d a b n = some r ∧ r.length = n ∧ r.Sorted (fun x y => x ≥ y) ∧
      ∀ i x y, r[i]? = some x → r[i + 1]? = some y → x ≥ y := by
  have hs : ((classicMerge a b).take n).Sorted (fun x y => x ≥ y) :=
    (classicMerge_sorted a b hsa hsb).sublist (List.take_sublist n _)
  refine ⟨(classicMerge a b).take n,
    mergelist_eq_take_classicMerge d a b n hd (by omega) (by omega), ?_, hs, ?_⟩
  · rw [List.length_take, classicMerge_length]; omega
  · intro i x y hx hy
    obtain ⟨hi, rfl⟩ := List.getElem?_eq_some.mp hx
    obtain ⟨hj, rfl⟩ := List.getElem?_eq_some.mp hy
    exact List.pairwise_iff_getElem.mp hs i (i + 1) hi hj (Nat.lt_succ_self i)

theorem mergelist_descending_witness :
    ∃ r, mergelist [9, 9, 9] [5, 3, 1] [4, 4, 0] 3 = some r ∧ r.length = 3 ∧
      r.Sorted (fun x y => x ≥ y) ∧ ∀ i x y, r[i]? = some x → r[i + 1]? = some y → x ≥ y :=
  mergelist_descending 3 [9, 9, 9] [5, 3, 1] [4, 4, 0] rfl rfl rfl (by decide) (by decide)

/-! ## Claims about `mergesortlist` -/

/-- C3, as stated, fails, in two ways. With count `*n = 1`, list length 1 and operands of
`1*NUMLIST*1 = 3` cells, `mergesortlist` merges list 0 only; the cell at offset
`(0*NUMLIST + 1)*1` of `inoutvec` still holds 1, while `mergelist` on the two lists at that
offset gives 5. And with count `*n = 3`, lists of `2^30` integers and operands of
`3*NUMLIST*2^30` cells, the offset `2*2^30 = 2^31` of list 2 does not fit the `int` it is
computed in: the call has no defined result. -/
theorem mergesortlist_groups_counterexample :
    (mergesortlist { invec := [0, 5, 0], inoutvec := [0, 1, 0] } 1 4 4 (fun _ => 0) =
        some { invec := [0, 5, 0], inoutvec := [0, 1, 0] } ∧
      slice [0, 1, 0] ((0 * NUMLIST + 1) * 1) 1 = [1] ∧
      mergelist [0] (slice [0, 5, 0] ((0 * NUMLIST + 1) * 1) 1)
        (slice [0, 1, 0] ((0 * NUMLIST + 1) * 1) 1) 1 = some [5]) ∧
    (nvecOf 4294967296 4 = some 1073741824 ∧
      (List.replicate (3 * NUMLIST * 1073741824) (0 : Int)).length = 3 * NUMLIST * 1073741824 ∧
      mergesortlist { invec := List.replicate (3 * NUMLIST * 1073741824) 0,
                      inoutvec := List.replicate (3 * NUMLIST * 1073741824) 0 }
        3 4 4294967296 (fun _ => 0) = none) :=
  ⟨by decide, by decide, List.length_replicate _ _,
    mergesortlist_overflow _ 3 4 4294967296 _ 1073741824 (by decide) 2 (by decide) (by decide)⟩

/-- C3, amended: the count `*n = r` is the number of lists. For every `r` and every list
length `nvec` derived from the extents with `r*nvec ≤ 2^31`, so that the offsets
`ilist*nvec+i` fit the `int` they are computed in, and operands of `r*NUMLIST*nvec` cells,
the call returns and, for every list index `k < r`, the list of `inoutvec` at offset `k*nvec`
equals `mergelist` applied to the lists of `invec` and of the original `inoutvec` at that
offset. -/
theorem mergesortlist_lists (r nvec : Nat) (ops : Operands) (intextent listextent : Int)
    (junk : Nat → Int) (hnvec : nvecOf listextent intextent = some (nvec : Int))
    (hbd : r * nvec ≤ 2 ^ 31)
    (hin : ops.invec.length = r * NUMLIST * nvec)
    (hio : ops.inoutvec.length = r * NUMLIST * nvec) :
    ∃ res, mergesortlist ops (r : Int) intextent listextent junk = some res ∧
      ∀ k, k < r → ∀ d : List Int, d.length = nvec →
        mergelist d (slice ops.invec (k * nvec) nvec) (slice ops.inoutvec (k * nvec) nvec) nvec =
          some (slice res.inoutvec (k * nvec) nvec) := by
  have hle : r * nvec ≤ r * NUMLIST * nvec :=
    Nat.mul_le_mul_right nvec (Nat.le_mul_of_pos_right r (by decide))
  obtain ⟨res, hres, _, _, hsl, _⟩ := mergesortlist_spec ops (r : Int) intextent listextent junk
    nvec hnvec (by simpa [hin] using hle) (by simpa [hio] using hle) (by simpa using hbd)
  refine ⟨res, hres, ?_⟩
  intro k hk d hd
  have hk1 : (k + 1) * nvec ≤ r * nvec := Nat.mul_le_mul_right nvec hk
  rw [hsl k (by simpa using hk)]
  exact mergelist_slices d ops.invec ops.inoutvec nvec k hd (by omega) (by omega)

theorem mergesortlist_lists_witness :
    ∃ res, mergesortlist { invec := [9, 5, 8, 2, 7, 7, 6, 1, 3, 3, 4, 0],
                           inoutvec := [6, 4, 9, 1, 5, 5, 2, 2, 8, 0, 1, 1] }
        ((2 : Nat) : Int) 4 8 (fun _ => 0) = some res ∧
      ∀ k, k < 2 → ∀ d : List Int, d.length = 2 →
        mergelist d (slice [9, 5, 8, 2, 7, 7, 6, 1, 3, 3, 4, 0] (k * 2) 2)
            (slice [6, 4, 9, 1, 5, 5, 2, 2, 8, 0, 1, 1] (k * 2) 2) 2 =
          some (slice res.inoutvec (k * 2) 2) :=
  mergesortlist_lists 2 2 { invec := [9, 5, 8, 2, 7, 7, 6, 1, 3, 3, 4, 0],
                            inoutvec := [6, 4, 9, 1, 5, 5, 2, 2, 8, 0, 1, 1] } 4 8 (fun _ => 0)
    (by decide) (by decide) (by decide) (by decide)

/-- C4, as stated, fails: with count `*n = 3`, lists of `2^30` integers and two separate
operands of `3*2^30` cells, the offset `2*2^30 = 2^31` of list 2 does not fit the `int` it
is computed in. That is signed overflow: the call has no defined result, and nothing is
promised about `invec`. -/
theorem mergesortlist_invec_overflow_counterexample :
    nvecOf 4294967296 4 = some 1073741824 ∧
      (List.replicate (3 * 1073741824) (0 : Int)).length = 3 * 1073741824 ∧
      mergesortlist { invec := List.replicate (3 * 1073741824) 0,
                      inoutvec := List.replicate (3 * 1073741824) 0 }
        3 4 4294967296 (fun _ => 0) = none :=
  ⟨by decide, List.length_replicate _ _,
    mergesortlist_overflow _ 3 4 4294967296 _ 1073741824 (by decide) 2 (by decide) (by decide)⟩

/-- C4, amended: when the list length derived from the extents is `nvec`, the count and
`nvec` have a product of at most `2^31`, so that the offsets `ilist*nvec+i` fit the `int`
they are computed in, and both operands hold the `*n` lists the call covers, `mergesortlist`
returns and its first operand `invec` is exactly as it was on entry. -/
theorem mergesortlist_invec_unchanged (ops : Operands) (n intextent listextent : Int)
    (junk : Nat → Int) (nvec : Nat) (hnvec : nvecOf listextent intextent = some (nvec : Int))
    (hbd : n.toNat * nvec ≤ 2 ^ 31)
    (hin : n.toNat * nvec ≤ ops.invec.length) (hio : n.toNat * nvec ≤ ops.inoutvec.length) :
    ∃ res, mergesortlist ops n intextent listextent junk = some res ∧ res.invec = ops.invec := by
  obtain ⟨res, hres, hinv, _⟩ := mergesortlist_spec ops n intextent listextent junk nvec hnvec
    hin hio hbd
  exact ⟨res, hres, hinv⟩

theorem mergesortlist_invec_unchanged_witness :
    ∃ res, mergesortlist { invec := [5, 3, 4, 2], inoutvec := [6, 1, 7, 0] } 2 4 8 (fun _ => 0) =
      some res ∧ res.invec = [5, 3, 4, 2] :=
  mergesortlist_invec_unchanged { invec := [5, 3, 4, 2], inoutvec := [6, 1, 7, 0] } 2 4 8
    (fun _ => 0) 2 (by decide) (by decide) (by decide) (by decide)

/-! ## Algebraic claims about `mergelist` -/

/-- C5: on descending lists `a`, `b`, `c` of length `n`, merging `a` with `b` and the result
with `c` gives the same list as merging `a` with the merge of `b` and `c`; both pairings
return. -/
theorem mergelist_assoc (n : Nat) (a b c d1 d2 d3 d4 : List Int)
    (ha : a.length = n) (hb : b.length = n) (hc : c.length = n)
    (hd1 : d1.length = n) (hd2 : d2.length = n) (hd3 : d3.length = n) (hd4 : d4.length = n)
    (hsa : a.Sorted (fun x y => x ≥ y)) (hsb : b.Sorted (fun x y => x ≥ y))
    (hsc : c.Sorted (fun x y => x ≥ y)) :
    ∃ r, (mergelist d1 a b n).bind (fun ab => mergelist d2 ab c n) = some r ∧
      (mergelist d3 b c n).bind (fun bc => mergelist d4 a bc n) = some r := by
  refine ⟨(sortDesc (a ++ b ++ c)).take n, ?_, ?_⟩
  · rw [mergelist_sorted_eq d1 a b n hd1 ha hb hsa hsb, Option.some_bind,
      mergelist_topN_left n d2 (a ++ b) c hd2 (by simp; omega) hc hsc]
  · rw [mergelist_sorted_eq d3 b c n hd3 hb hc hsb hsc, Option.some_bind,
      mergelist_topN_right n d4 a (b ++ c) hd4 ha hsa (by simp; omega), List.append_assoc]

theorem mergelist_assoc_witness :
    ∃ r, (mergelist [0, 0] [5, 3] [4, 4] 2).bind (fun ab => mergelist [0, 0] ab [6, 0] 2) =
        some r ∧
      (mergelist [0, 0] [4, 4] [6, 0] 2).bind (fun bc => mergelist [0, 0] [5, 3] bc 2) =
        some r :=
  mergelist_assoc 2 [5, 3] [4, 4] [6, 0] [0, 0] [0, 0] [0, 0] [0, 0] rfl rfl rfl rfl rfl rfl rfl
    (by decide) (by decide) (by decide)

/-- C6: on descending lists `a` and `b` of length `n`, equal values included, `mergelist`
returns the same list for the operands in either order. -/
theorem mergelist_comm (n : Nat) (a b d1 d2 : List Int)
    (ha : a.length = n) (hb : b.length = n) (hd1 : d1.length = n) (hd2 : d2.length = n)
    (hsa : a.Sorted (fun x y => x ≥ y)) (hsb : b.Sorted (fun x y => x ≥ y)) :
    ∃ r, mergelist d1 a b n = some r ∧ mergelist d2 b a n = some r := by
  refine ⟨(sortDesc (a ++ b)).take n, mergelist_sorted_eq d1 a b n hd1 ha hb hsa hsb, ?_⟩
  rw [mergelist_sorted_eq d2 b a n hd2 hb ha hsb hsa,
    sortDesc_congr (List.perm_append_comm : (b ++ a).Perm (a ++ b))]

theorem mergelist_comm_witness :
    ∃ r, mergelist [0, 0, 0] [5, 4, 1] [4, 4, 0] 3 = some r ∧
      mergelist [0, 0, 0] [4, 4, 0] [5, 4, 1] 3 = some r :=
  mergelist_comm 3 [5, 4, 1] [4, 4, 0] [0, 0, 0] [0, 0, 0] rfl rfl rfl rfl (by decide) (by decide)

/-- C7: for a collection `ls` of descending lists of length `n`, taken in any order
`l0 :: rest`, folding `mergelist` over it from `l0` (the partial result as first or as second
operand) gives the first `n` elements of the descending sort of all the lists together. -/
theorem mergelist_fold_top_n (n : Nat) (d : List Int) (hd : d.length = n)
    (ls : List (List Int)) (hls : ∀ l ∈ ls, l.length = n ∧ l.Sorted (fun x y => x ≥ y))
    (l0 : List Int) (rest : List (List Int)) (hperm : (l0 :: rest).Perm ls) :
    rest.foldlM (fun acc l => mergelist d acc l n) l0 = some ((sortDesc ls.flatten).take n) ∧
      rest.foldlM (fun acc l => mergelist d l acc n) l0 = some ((sortDesc ls.flatten).take n) := by
  have h0 := hls l0 (hperm.mem_iff.mp (List.mem_cons_self l0 rest))
  have hrest : ∀ l ∈ rest, l.length = n ∧ l.Sorted (fun x y => x ≥ y) :=
    fun l hl => hls l (hperm.mem_iff.mp (List.mem_cons_of_mem l0 hl))
  have hl0 : (sortDesc l0).take n = l0 := by
    rw [sortDesc_of_sorted l0 h0.2, List.take_of_length_le (le_of_eq h0.1)]
  have hfl : sortDesc (l0 ++ rest.flatten) = sortDesc ls.flatten := by
    apply sortDesc_congr
    simpa using hperm.flatten
  have hL := foldlM_mergelist_left n d hd rest l0 (le_of_eq h0.1.symm) hrest
  have hR := foldlM_mergelist_right n d hd rest l0 (le_of_eq h0.1.symm) hrest
  rw [hl0, hfl] at hL hR
  exact ⟨hL, hR⟩

theorem mergelist_fold_top_n_witness :
    [[6, 0], [5, 3]].foldlM (fun acc l => mergelist [0, 0] acc l 2) [4, 4] =
        some ((sortDesc [[5, 3], [4, 4], [6, 0]].flatten).take 2) ∧
      [[6, 0], [5, 3]].foldlM (fun acc l => mergelist [0, 0] l acc 2) [4, 4] =
        some ((sortDesc [[5, 3], [4, 4], [6, 0]].flatten).take 2) :=
  mergelist_fold_top_n 2 [0, 0] rfl [[5, 3], [4, 4], [6, 0]] (by decide) [4, 4]
    [[6, 0], [5, 3]] (by decide)

/-- The demonstration of `main` with three processes, the extent of an `int` taken as 1 and
a zeroed scratch buffer: every order of the ranks and both pairings leave the same bundle. -/
theorem combine_demo_orders :
    ∀ p ∈ ([0, 1, 2] : List Int), ∀ q ∈ ([0, 1, 2] : List Int), ∀ r ∈ ([0, 1, 2] : List Int),
      [p, q, r].Perm [0, 1, 2] →
      (combine 1 (fun _ => 0) (mysortedlist p 3) (mysortedlist q 3)).bind
          (fun t => combine 1 (fun _ => 0) t (mysortedlist r 3)) =
        some [14, 13, 12, 11, 10, 114, 113, 112, 111, 110, 214, 213, 212, 211, 210] ∧
      (combine 1 (fun _ => 0) (mysortedlist q 3) (mysortedlist r 3)).bind
          (fun t => combine 1 (fun _ => 0) (mysortedlist p 3) t) =
        some [14, 13, 12, 11, 10, 114, 113, 112, 111, 110, 214, 213, 212, 211, 210] := by
  decide

/-- C8: with three processes, `NUMLIST = 3` and `N = 5`, the bundles `mysortedlist` of the
ranks, taken in any order `p, q, r` and combined by `mergesortlist` (count `NUMLIST`, lists of
`N` integers) as `(p op q) op r` or as `p op (q op r)`, leave for each list `l` of the bundle
`[14+100*l, 13+100*l, 12+100*l, 11+100*l, 10+100*l]`, whatever the extent `e > 0` of an `int`
and whatever the scratch buffers hold. -/
theorem combine_demo (e : Int) (he : 0 < e) (j1 j2 : Nat → Int) (p q r : Int)
    (hperm : [p, q, r].Perm [0, 1, 2]) :
    (combine e j1 (mysortedlist p 3) (mysortedlist q 3)).bind
        (fun t => combine e j2 t (mysortedlist r 3)) =
      some [14, 13, 12, 11, 10, 114, 113, 112, 111, 110, 214, 213, 212, 211, 210] ∧
    (combine e j1 (mysortedlist q 3) (mysortedlist r 3)).bind
        (fun t => combine e j2 (mysortedlist p 3) t) =
      some [14, 13, 12, 11, 10, 114, 113, 112, 111, 110, 214, 213, 212, 211, 210] := by
  have hp : p ∈ ([0, 1, 2] : List Int) := hperm.subset (by simp)
  have hq : q ∈ ([0, 1, 2] : List Int) := hperm.subset (by simp)
  have hr : r ∈ ([0, 1, 2] : List Int) := hperm.subset (by simp)
  have hc : ∀ (junk : Nat → Int) (x y : List Int),
      combine e junk x y = combine 1 (fun _ => 0) x y := combine_indep e he
  simp only [hc]
  exact combine_demo_orders p hp q hq r hr hperm

theorem combine_demo_witness :
    (combine 4 (fun _ => -1) (mysortedlist 2 3) (mysortedlist 0 3)).bind
        (fun t => combine 4 (fun i => (i : Int)) t (mysortedlist 1 3)) =
      some [14, 13, 12, 11, 10, 114, 113, 112, 111, 110, 214, 213, 212, 211, 210] ∧
    (combine 4 (fun _ => -1) (mysortedlist 0 3) (mysortedlist 1 3)).bind
        (fun t => combine 4 (fun i => (i : Int)) (mysortedlist 2 3) t) =
      some [14, 13, 12, 11, 10, 114, 113, 112, 111, 110, 214, 213, 212, 211, 210] :=
  combine_demo 4 (by decide) (fun _ => -1) (fun i => (i : Int)) 2 0 1 (by decide)

/-- C9, as stated, fails: at the first step on `a = [7, 2]` and `b = [7, 5]` the heads are
equal, the test `a[ia] > b[ib]` is false, so the `b` branch runs: `ib` advances from 0 to 1
and `ia` stays 0. -/
theorem mergelistBody_tie_counterexample :
    ([7, 2] : List Int)[0]? = ([7, 5] : List Int)[0]? ∧
      mergelistBody [7, 2] [7, 5] 0 { merge := [0, 0], ia := 0, ib := 0 } =
        some { merge := [7, 0], ia := 0, ib := 1 } := by
  decide

/-- C9, amended: ties are broken in favour of `b`. At every step of `mergelist` at which
`a[ia] == b[ib]`, the `a` branch is not taken: the output element is taken from `b`, the
cursor `ib` advances and `ia` stays. -/
theorem mergelistBody_tie (a b : List Int) (i : Nat) (s : MergeState) (v : Int)
    (ha : a[s.ia]? = some v) (hb : b[s.ib]? = some v) (hi : i < s.merge.length) :
    mergelistBody a b i s = some { merge := s.merge.set i v, ia := s.ia, ib := s.ib + 1 } := by
  simp [mergelistBody, ha, hb, hi]

theorem mergelistBody_tie_witness :
    mergelistBody [7, 2] [9, 7] 1 { merge := [9, 0], ia := 0, ib := 1 } =
      some { merge := ([9, 0] : List Int).set 1 7, ia := 0, ib := 1 + 1 } :=
  mergelistBody_tie [7, 2] [9, 7] 1 { merge := [9, 0], ia := 0, ib := 1 } 7 rfl rfl
    (by decide)

/-- C10: for a descending list `a` of length `n`, `mergelist` on `a` and `a` returns a list
of length `n` whose element at each index `i < n` is `a[i / 2]`. -/
theorem mergelist_self (n : Nat) (d a : List Int) (hd : d.length = n) (ha : a.length = n)
    (hsa : a.Sorted (fun x y => x ≥ y)) :
    ∃ r, mergelist d a a n = some r ∧ r.length = n ∧ ∀ i, i < n → r[i]? = a[i / 2]? := by
  refine ⟨(double a).take n, ?_, ?_, ?_⟩
  · rw [mergelist_eq_take_classicMerge d a a n hd (by omega) (by omega), classicMerge_self a hsa]
  · rw [List.length_take, ← classicMerge_self a hsa, classicMerge_length]; omega
  · intro i hi
    rw [List.getElem?_take_of_lt hi, double_getElem?]

theorem mergelist_self_witness :
    ∃ r, mergelist [0, 0, 0] [5, 5, 2] [5, 5, 2] 3 = some r ∧ r.length = 3 ∧
      ∀ i, i < 3 → r[i]? = ([5, 5, 2] : List Int)[i / 2]? :=
  mergelist_self 3 [0, 0, 0] [5, 5, 2] rfl rfl (by decide)

/-! ## Interleaves -/

theorem interleaves_cons_left (x : Int) (as bs r : List Int) (h : interleaves as bs r = true) :
    interleaves (x :: as) bs (x :: r) = true := by
  simp [interleaves, h]

theorem interleaves_cons_right (y : Int) (as bs r : List Int) (h : interleaves as bs r = true) :
    interleaves as (y :: bs) (y :: r) = true := by
  simp [interleaves, h]

theorem interleaves_cases (as bs : List Int) (z : Int) (r : List Int)
    (h : interleaves as bs (z :: r) = true) :
    (∃ as1, as = z :: as1 ∧ interleaves as1 bs r = true) ∨
      (∃ bs1, bs = z :: bs1 ∧ interleaves as bs1 r = true) := by
  simp only [interleaves, Bool.or_eq_true] at h
  rcases h with h | h
  · cases as with
    | nil => simp at h
    | cons x as1 =>
      simp only [Bool.and_eq_true, beq_iff_eq] at h
      exact Or.inl ⟨as1, by rw [h.1], h.2⟩
  · cases bs with
    | nil => simp at h
    | cons y bs1 =>
      simp only [Bool.and_eq_true, beq_iff_eq] at h
      exact Or.inr ⟨bs1, by rw [h.1], h.2⟩

theorem interleaves_perm : ∀ (r as bs : List Int), interleaves as bs r = true →
    r.Perm (as ++ bs)
  | [], as, bs, h => by
    simp only [interleaves, Bool.and_eq_true, List.isEmpty_iff] at h
    rw [h.1, h.2]; exact List.Perm.refl _
  | z :: r, as, bs, h => by
    rcases interleaves_cases as bs z r h with ⟨as1, rfl, h1⟩ | ⟨bs1, rfl, h1⟩
    · exact (interleaves_perm r as1 bs h1).cons z
    · exact ((interleaves_perm r as bs1 h1).cons z).trans List.perm_middle.symm

theorem interleaves_sublist_left : ∀ (r as bs : List Int), interleaves as bs r = true →
    as.Sublist r
  | [], as, bs, h => by
    simp only [interleaves, Bool.and_eq_true, List.isEmpty_iff] at h
    rw [h.1]
  | z :: r, as, bs, h => by
    rcases interleaves_cases as bs z r h with ⟨as1, rfl, h1⟩ | ⟨bs1, rfl, h1⟩
    · exact (interleaves_sublist_left r as1 bs h1).cons₂ z
    · exact (interleaves_sublist_left r as bs1 h1).cons z

theorem interleaves_sublist_right : ∀ (r as bs : List Int), interleaves as bs r = true →
    bs.Sublist r
  | [], as, bs, h => by
    simp only [interleaves, Bool.and_eq_true, List.isEmpty_iff] at h
    rw [h.2]
  | z :: r, as, bs, h => by
    rcases interleaves_cases as bs z r h with ⟨as1, rfl, h1⟩ | ⟨bs1, rfl, h1⟩
    · exact (interleaves_sublist_right r as1 bs h1).cons z
    · exact (interleaves_sublist_right r as bs1 h1).cons₂ z

/-! ## The iterations of `mergelist` one by one -/

/-- Running `j + m` iterations is running `j` iterations and then `m` more. -/
theorem mergelistLoop_add (a b : List Int) (m : Nat) : ∀ (j i : Nat) (s : MergeState),
    mergelistLoop a b (j + m) i s =
      (mergelistLoop a b j i s).bind (mergelistLoop a b m (i + j))
  | 0, i, s => by simp [mergelistLoop]
  | j + 1, i, s => by
    have h : j + 1 + m = (j + m) + 1 := by omega
    have hi : i + (j + 1) = i + 1 + j := by omega
    rw [h]
    simp only [mergelistLoop, Option.bind_assoc, hi]
    congr 1
    funext s1
    exact mergelistLoop_add a b m j (i + 1) s1

/-- Running `k` iterations of the loop of `mergelist` from output index `i`, when each source
still has `k` unread elements and the destination has room: the `k` cells written are an
interleave of the elements the two cursors have passed. -/
theorem mergelistLoop_interleaves : ∀ (k i : Nat) (a b : List Int) (s : MergeState)
    (pre mid post : List Int), s.merge = pre ++ mid ++ post → pre.length = i → mid.length = k →
    s.ia + k ≤ a.length → s.ib + k ≤ b.length →
    ∃ t seg, mergelistLoop a b k i s = some t ∧ t.merge = pre ++ seg ++ post ∧
      seg.length = k ∧ t.ia + t.ib = s.ia + s.ib + k ∧ s.ia ≤ t.ia ∧ s.ib ≤ t.ib ∧
      interleaves ((a.drop s.ia).take (t.ia - s.ia)) ((b.drop s.ib).take (t.ib - s.ib)) seg = true
  | 0, i, a, b, s, pre, mid, post, hm, _, hmid, _, _ => by
    have : mid = [] := List.length_eq_zero.mp hmid
    subst this
    exact ⟨s, [], rfl, by simp [hm], rfl, by omega, le_refl _, le_refl _, by simp [interleaves]⟩
  | k + 1, i, a, b, s, pre, mid, post, hm, hpre, hmid, ha, hb => by
    have hia : s.ia < a.length := by omega
    have hib : s.ib < b.length := by omega
    obtain ⟨m, mid1, rfl⟩ : ∃ m mid1, mid = m :: mid1 := by
      cases mid with
      | nil => simp at hmid
      | cons m mid1 => exact ⟨m, mid1, rfl⟩
    have hmid1 : mid1.length = k := by simpa using hmid
    have hi : i < s.merge.length := by
      rw [hm]; simp; omega
    have hda : a.drop s.ia = a[s.ia] :: a.drop (s.ia + 1) := List.drop_eq_getElem_cons hia
    have hdb : b.drop s.ib = b[s.ib] :: b.drop (s.ib + 1) := List.drop_eq_getElem_cons hib
    by_cases hxy : a[s.ia] > b[s.ib]
    · have hbody : mergelistBody a b i s =
          some { merge := s.merge.set i a[s.ia], ia := s.ia + 1, ib := s.ib } := by
        simp [mergelistBody, List.getElem?_eq_getElem hia, List.getElem?_eq_getElem hib, hi, hxy]
      have hset : s.merge.set i a[s.ia] = (pre ++ [a[s.ia]]) ++ mid1 ++ post := by
        rw [hm, ← hpre]; exact set_append_mid pre post m _ mid1
      obtain ⟨t, seg, ht, htm, hseg, hsum, hta, htb, hint⟩ := mergelistLoop_interleaves k (i + 1)
        a b { merge := s.merge.set i a[s.ia], ia := s.ia + 1, ib := s.ib }
        (pre ++ [a[s.ia]]) mid1 post hset (by simp [hpre]) hmid1
        (by simp only; omega) (by simp only; omega)
      simp only at hsum hta htb hint
      have hcnt : t.ia - s.ia = (t.ia - (s.ia + 1)) + 1 := by omega
      refine ⟨t, a[s.ia] :: seg, ?_, ?_, ?_, ?_, ?_, ?_, ?_⟩
      · simp [mergelistLoop, hbody, ht]
      · rw [htm]; simp
      · simp [hseg]
      · omega
      · omega
      · exact htb
      · rw [hda, hcnt, List.take_succ_cons]
        exact interleaves_cons_left _ _ _ _ hint
    · have hbody : mergelistBody a b i s =
          some { merge := s.merge.set i b[s.ib], ia := s.ia, ib := s.ib + 1 } := by
        simp [mergelistBody, List.getElem?_eq_getElem hia, List.getElem?_eq_getElem hib, hi, hxy]
      have hset : s.merge.set i b[s.ib] = (pre ++ [b[s.ib]]) ++ mid1 ++ post := by
        rw [hm, ← hpre]; exact set_append_mid pre post m _ mid1
      obtain ⟨t, seg, ht, htm, hseg, hsum, hta, htb, hint⟩ := mergelistLoop_interleaves k (i + 1)
        a b { merge := s.merge.set i b[s.ib], ia := s.ia, ib := s.ib + 1 }
        (pre ++ [b[s.ib]]) mid1 post hset (by simp [hpre]) hmid1
        (by simp only; omega) (by simp only; omega)
      simp only at hsum hta htb hint
      have hcnt : t.ib - s.ib = (t.ib - (s.ib + 1)) + 1 := by omega
      refine ⟨t, b[s.ib] :: seg, ?_, ?_, ?_, ?_, ?_, ?_, ?_⟩
      · simp [mergelistLoop, hbody, ht]
      · rw [htm]; simp
      · simp [hseg]
      · omega
      · exact hta
      · omega
      · rw [hdb, hcnt, List.take_succ_cons]
        exact interleaves_cons_right _ _ _ _ hint

/-- The state in which iteration `j` of the loop of `mergelist` starts, on sources and a
destination of at least `n > j` cells: the cursors add up to `j`, so both reads and the write
of the iteration are inside their buffers, and the destination still has its length. -/
theorem mergelistLoop_at (d a b : List Int) (n j : Nat) (hj : j ≤ n)
    (hd : n ≤ d.length) (ha : n ≤ a.length) (hb : n ≤ b.length) :
    ∃ t, mergelistLoop a b j 0 { merge := d, ia := 0, ib := 0 } = some t ∧
      t.ia + t.ib = j ∧ t.merge.length = d.length := by
  obtain ⟨t, ht, htm, hsum, _, _⟩ := mergelistLoop_spec j 0 a b
    { merge := d, ia := 0, ib := 0 } [] (d.take j) (d.drop j) (by simp) rfl
    (by simp; omega) (by simp only; omega) (by simp only; omega)
  refine ⟨t, ht, by simpa using hsum, ?_⟩
  rw [htm]
  simp only [List.nil_append, List.length_append, List.length_take, List.length_drop,
    classicMerge_length]
  omega

theorem mergedSlice_sorted (invec inoutvec : List Int) (nvec k : Nat)
    (h1 : (slice invec (k * nvec) nvec).Sorted (fun x y => x ≥ y))
    (h2 : (slice inoutvec (k * nvec) nvec).Sorted (fun x y => x ≥ y)) :
    (mergedSlice invec inoutvec nvec k).Sorted (fun x y => x ≥ y) :=
  (classicMerge_sorted _ _ h1 h2).sublist (List.take_sublist nvec _)

theorem mergelistBody_isSome (a b : List Int) (i : Nat) (s : MergeState)
    (hia : s.ia < a.length) (hib : s.ib < b.length) (hi : i < s.merge.length) :
    (mergelistBody a b i s).isSome = true := by
  simp only [mergelistBody, List.getElem?_eq_getElem hia, List.getElem?_eq_getElem hib, hi,
    if_true]
  split <;> rfl

/-! ## Further claims -/

/-- C11, as stated, fails: with count `*n = 3` and operands of `3*2^30` zeros, every list
of `2^30` integers in either operand is descending, but the offset `2*2^30 = 2^31` of list 2
does not fit the `int` it is computed in. That is signed overflow: the call has no defined
result, so nothing is promised about `inoutvec` on exit. -/
theorem mergesortlist_sorted_overflow_counterexample :
    nvecOf 4294967296 4 = some 1073741824 ∧
      (List.replicate (3 * 1073741824) (0 : Int)).length = 3 * 1073741824 ∧
      (∀ k, (slice (List.replicate (3 * 1073741824) (0 : Int)) (k * 1073741824)
          1073741824).Sorted (fun x y => x ≥ y)) ∧
      mergesortlist { invec := List.replicate (3 * 1073741824) 0,
                      inoutvec := List.replicate (3 * 1073741824) 0 }
        3 4 4294967296 (fun i => (i : Int)) = none :=
  ⟨by decide, List.length_replicate _ _,
    fun _ => (replicate_sorted _ 0).sublist (slice_sublist _ _ _),
    mergesortlist_overflow _ 3 4 4294967296 _ 1073741824 (by decide) 2 (by decide) (by decide)⟩

/-- C11, amended: if the count and the list length `nvec` have a product of at most `2^31`,
so that the offsets `ilist*nvec+i` fit the `int` they are computed in, and the lists of
`invec` and of `inoutvec` that the call covers are descending on entry, then `mergesortlist`
returns, `inoutvec` has the length it had, and each list of `inoutvec` that the call covers
has `nvec` elements and is again descending. -/
theorem mergesortlist_sorted (ops : Operands) (n intextent listextent : Int) (junk : Nat → Int)
    (nvec : Nat) (hnvec : nvecOf listextent intextent = some (nvec : Int))
    (hbd : n.toNat * nvec ≤ 2 ^ 31)
    (hin : n.toNat * nvec ≤ ops.invec.length) (hio : n.toNat * nvec ≤ ops.inoutvec.length)
    (hs : ∀ k, k < n.toNat →
      (slice ops.invec (k * nvec) nvec).Sorted (fun x y => x ≥ y) ∧
      (slice ops.inoutvec (k * nvec) nvec).Sorted (fun x y => x ≥ y)) :
    ∃ res, mergesortlist ops n intextent listextent junk = some res ∧
      res.inoutvec.length = ops.inoutvec.length ∧
      ∀ k, k < n.toNat →
        (slice res.inoutvec (k * nvec) nvec).length = nvec ∧
        (slice res.inoutvec (k * nvec) nvec).Sorted (fun x y => x ≥ y) := by
  obtain ⟨res, hres, _, hlen, hsl, _⟩ := mergesortlist_spec ops n intextent listextent junk nvec
    hnvec hin hio hbd
  refine ⟨res, hres, hlen, ?_⟩
  intro k hk
  have hk1 : (k + 1) * nvec ≤ n.toNat * nvec := Nat.mul_le_mul_right nvec hk
  rw [hsl k hk]
  exact ⟨mergedSlice_length _ _ _ _ (by omega) (by omega),
    mergedSlice_sorted _ _ _ _ (hs k hk).1 (hs k hk).2⟩

theorem mergesortlist_sorted_witness :
    ∃ res, mergesortlist { invec := [5, 3, 4, 2], inoutvec := [6, 1, 7, 0] } 2 4 8 (fun _ => 0) =
        some res ∧
      res.inoutvec.length = ([6, 1, 7, 0] : List Int).length ∧
      ∀ k, k < (2 : Int).toNat →
        (slice res.inoutvec (k * 2) 2).length = 2 ∧
        (slice res.inoutvec (k * 2) 2).Sorted (fun x y => x ≥ y) :=
  mergesortlist_sorted { invec := [5, 3, 4, 2], inoutvec := [6, 1, 7, 0] } 2 4 8 (fun _ => 0) 2
    (by decide) (by decide) (by decide) (by decide) (by decide)

/-- C12: on sources and a destination of exactly `n` cells, sorted or not, every iteration
`j < n` of the loop of `mergelist` starts in a state the run really passes through, with
`ia + ib = j`, so that `ia`, `ib` and the output index `j` are all below `n` and the body
runs without leaving a buffer; when `mergelist` returns, `ia + ib = n`. -/
theorem mergelist_bounds (n : Nat) (d a b : List Int)
    (hd : d.length = n) (ha : a.length = n) (hb : b.length = n) :
    (∀ j, j < n → ∃ t, mergelistLoop a b j 0 { merge := d, ia := 0, ib := 0 } = some t ∧
        mergelistRun d a b n = mergelistLoop a b (n - j) j t ∧
        t.ia + t.ib = j ∧ t.ia < n ∧ t.ib < n ∧ t.merge.length = n ∧
        (mergelistBody a b j t).isSome = true) ∧
      ∃ t, mergelistRun d a b n = some t ∧ t.ia + t.ib = n := by
  constructor
  · intro j hj
    obtain ⟨t, ht, hsum, hlen⟩ := mergelistLoop_at d a b n j (le_of_lt hj) (by omega) (by omega)
      (by omega)
    refine ⟨t, ht, ?_, hsum, by omega, by omega, by omega, ?_⟩
    · have hsplit := mergelistLoop_add a b (n - j) j 0 { merge := d, ia := 0, ib := 0 }
      have hn : j + (n - j) = n := by omega
      rw [hn, ht, Option.some_bind, Nat.zero_add] at hsplit
      exact hsplit
    · exact mergelistBody_isSome a b j t (by omega) (by omega) (by omega)
  · obtain ⟨t, ht, hsum, _⟩ := mergelistLoop_at d a b n n (le_refl n) (by omega) (by omega)
      (by omega)
    exact ⟨t, ht, hsum⟩

theorem mergelist_bounds_witness :
    (∀ j, j < 3 → ∃ t, mergelistLoop [2, 9, 4] [1, 8, 8] j 0
          { merge := [0, 0, 0], ia := 0, ib := 0 } = some t ∧
        mergelistRun [0, 0, 0] [2, 9, 4] [1, 8, 8] 3 =
          mergelistLoop [2, 9, 4] [1, 8, 8] (3 - j) j t ∧
        t.ia + t.ib = j ∧ t.ia < 3 ∧ t.ib < 3 ∧ t.merge.length = 3 ∧
        (mergelistBody [2, 9, 4] [1, 8, 8] j t).isSome = true) ∧
      ∃ t, mergelistRun [0, 0, 0] [2, 9, 4] [1, 8, 8] 3 = some t ∧ t.ia + t.ib = 3 :=
  mergelist_bounds 3 [0, 0, 0] [2, 9, 4] [1, 8, 8] rfl rfl rfl

/-- C13, as stated, fails: `nvec` is an `int`. For a list type of `k = 2147483648 = 2^31`
base units of extent 4 the quotient `listextent/intextent` is `2^31`, and stored in `nvec` it
becomes `-2147483648`. -/
theorem nvecOf_overflow_counterexample :
    (0 : Int) < 4 ∧ nvecOf (2147483648 * 4) 4 = some (-2147483648) ∧
      nvecOf (2147483648 * 4) 4 ≠ some 2147483648 := by
  decide

/-- C13, amended: for every base-unit extent `e > 0` and every `k` in the range of an
`int` (`0 ≤ k < 2^31`), in particular `k` in `{1, 5, 100}`, a list type of extent `k*e` gives
`nvec = k` exactly. -/
theorem nvecOf_contiguous (e : Int) (he : 0 < e) :
    (∀ k : Nat, (k : Int) < 2 ^ 31 → nvecOf ((k : Int) * e) e = some (k : Int)) ∧
      nvecOf (1 * e) e = some 1 ∧ nvecOf (5 * e) e = some 5 ∧ nvecOf (100 * e) e = some 100 :=
  ⟨fun k hk => nvecOf_mul k e he hk, nvecOf_mul 1 e he (by decide), nvecOf_mul 5 e he (by decide),
    nvecOf_mul 100 e he (by decide)⟩

theorem nvecOf_contiguous_witness :
    (∀ k : Nat, (k : Int) < 2 ^ 31 → nvecOf ((k : Int) * 4) 4 = some (k : Int)) ∧
      nvecOf (1 * 4) 4 = some 1 ∧ nvecOf (5 * 4) 4 = some 5 ∧ nvecOf (100 * 4) 4 = some 100 :=
  nvecOf_contiguous 4 (by decide)

/-- The operands `mergesortlist` returns do not depend on what `malloc` left in the scratch
buffer. -/
theorem mergesortlist_junk (ops : Operands) (n intextent listextent : Int)
    (j1 j2 : Nat → Int) :
    mergesortlist ops n intextent listextent j1 = mergesortlist ops n intextent listextent j2 := by
  simp only [mergesortlist]
  cases nvecOf listextent intextent with
  | none => rfl
  | some nvec =>
    simp only
    split
    · rfl
    · exact mergesortlistLoop_scratch nvec.toNat n.toNat 0 _ _ rfl rfl
        (malloc_length _ _) (malloc_length _ _)

/-- C14: `mergelist` never reads its destination. On sources of length `n`, two
destinations of `n` cells with any contents end with the same contents, all `n` of them
elements of the sources; hence one pass of the outer loop of `mergesortlist` does not depend
on what the scratch buffer held after the pass before, and the operands `mergesortlist`
returns do not depend on what the scratch buffer held at first. -/
theorem mergelist_dest_unread (n : Nat) (a b d1 d2 : List Int)
    (ha : a.length = n) (hb : b.length = n) (hd1 : d1.length = n) (hd2 : d2.length = n) :
    (∃ r, mergelist d1 a b n = some r ∧ mergelist d2 a b n = some r ∧ r.length = n ∧
        ∀ x ∈ r, x ∈ a ∨ x ∈ b) ∧
      (∀ (nvec ilist : Nat) (s1 s2 : OpBuffers), s1.invec = s2.invec →
        s1.inoutvec = s2.inoutvec → s1.mergevec.length = nvec → s2.mergevec.length = nvec →
        mergesortlistBody nvec ilist s1 = mergesortlistBody nvec ilist s2) ∧
      (∀ (ops : Operands) (cnt intextent listextent : Int) (j1 j2 : Nat → Int),
        mergesortlist ops cnt intextent listextent j1 =
          mergesortlist ops cnt intextent listextent j2) := by
  refine ⟨⟨(classicMerge a b).take n, ?_, ?_, ?_, ?_⟩, ?_, ?_⟩
  · exact mergelist_eq_take_classicMerge d1 a b n hd1 (by omega) (by omega)
  · exact mergelist_eq_take_classicMerge d2 a b n hd2 (by omega) (by omega)
  · rw [List.length_take, classicMerge_length]; omega
  · intro x hx
    exact List.mem_append.mp ((classicMerge_perm a b).mem_iff.mp (List.mem_of_mem_take hx))
  · intro nvec ilist s1 s2 h1 h2 h3 h4
    exact mergesortlistBody_scratch nvec ilist s1 s2 h1 h2 h3 h4
  · intro ops cnt intextent listextent j1 j2
    exact mergesortlist_junk ops cnt intextent listextent j1 j2

theorem mergelist_dest_unread_witness :
    (∃ r, mergelist [0, 0, 0] [2, 9, 4] [1, 8, 8] 3 = some r ∧
        mergelist [7, 7, 7] [2, 9, 4] [1, 8, 8] 3 = some r ∧ r.length = 3 ∧
        ∀ x ∈ r, x ∈ ([2, 9, 4] : List Int) ∨ x ∈ ([1, 8, 8] : List Int)) ∧
      (∀ (nvec ilist : Nat) (s1 s2 : OpBuffers), s1.invec = s2.invec →
        s1.inoutvec = s2.inoutvec → s1.mergevec.length = nvec → s2.mergevec.length = nvec →
        mergesortlistBody nvec ilist s1 = mergesortlistBody nvec ilist s2) ∧
      (∀ (ops : Operands) (cnt intextent listextent : Int) (j1 j2 : Nat → Int),
        mergesortlist ops cnt intextent listextent j1 =
          mergesortlist ops cnt intextent listextent j2) :=
  mergelist_dest_unread 3 [2, 9, 4] [1, 8, 8] [0, 0, 0] [7, 7, 7] rfl rfl rfl rfl

/-- C15: on sources and a destination of exactly `n` cells, sorted or not, `mergelist`
returns with cursors `ia` and `ib` that add up to `n`, and its output is an interleave of
`a[0..ia)` and `b[0..ib)`: a rearrangement of the two prefixes together in which the elements
of each prefix keep their order. -/
theorem mergelist_stable_interleave (n : Nat) (d a b : List Int)
    (hd : d.length = n) (ha : a.length = n) (hb : b.length = n) :
    ∃ t, mergelistRun d a b n = some t ∧ t.ia + t.ib = n ∧ t.merge.length = n ∧
      interleaves (a.take t.ia) (b.take t.ib) t.merge = true ∧
      t.merge.Perm (a.take t.ia ++ b.take t.ib) ∧
      (a.take t.ia).Sublist t.merge ∧ (b.take t.ib).Sublist t.merge := by
  obtain ⟨t, seg, ht, htm, hseg, hsum, _, _, hint⟩ := mergelistLoop_interleaves n 0 a b
    { merge := d, ia := 0, ib := 0 } [] d [] (by simp) rfl hd (by simp only; omega)
    (by simp only; omega)
  simp only [List.nil_append, List.append_nil, List.drop_zero, Nat.sub_zero, Nat.zero_add]
    at htm hsum hint
  rw [← htm] at hseg hint
  exact ⟨t, ht, hsum, hseg, hint, interleaves_perm _ _ _ hint,
    interleaves_sublist_left _ _ _ hint, interleaves_sublist_right _ _ _ hint⟩

theorem mergelist_stable_interleave_witness :
    ∃ t, mergelistRun [0, 0, 0] [2, 9, 4] [1, 8, 8] 3 = some t ∧ t.ia + t.ib = 3 ∧
      t.merge.length = 3 ∧
      interleaves (([2, 9, 4] : List Int).take t.ia) (([1, 8, 8] : List Int).take t.ib)
        t.merge = true ∧
      t.merge.Perm (([2, 9, 4] : List Int).take t.ia ++ ([1, 8, 8] : List Int).take t.ib) ∧
      (([2, 9, 4] : List Int).take t.ia).Sublist t.merge ∧
      (([1, 8, 8] : List Int).take t.ib).Sublist t.merge :=
  mergelist_stable_interleave 3 [0, 0, 0] [2, 9, 4] [1, 8, 8] rfl rfl rfl

/-- C16: on sources and a destination of exactly `n` cells, sorted or not, the output of
`mergelist` is the first `n` elements of the classic full merge of the sources, which has
`2*n` elements. -/
theorem mergelist_truncated_classic (n : Nat) (d a b : List Int)
    (hd : d.length = n) (ha : a.length = n) (hb : b.length = n) :
    mergelist d a b n = some ((classicMerge a b).take n) ∧
      (classicMerge a b).length = 2 * n := by
  refine ⟨mergelist_eq_take_classicMerge d a b n hd (by omega) (by omega), ?_⟩
  rw [classicMerge_length]; omega

theorem mergelist_truncated_classic_witness :
    mergelist [0, 0, 0] [2, 9, 4] [1, 8, 8] 3 = some ((classicMerge [2, 9, 4] [1, 8, 8]).take 3) ∧
      (classicMerge [2, 9, 4] [1, 8, 8]).length = 2 * 3 :=
  mergelist_truncated_classic 3 [0, 0, 0] [2, 9, 4] [1, 8, 8] rfl rfl rfl

/-- C17, as stated, fails: with count `c = 3`, list length `nvec = 2^30` and operands of
`3*2^30 + 1` cells, which is at least `c*nvec`, the offset `2*2^30 = 2^31` of list 2 does not
fit the `int` it is computed in. That is signed overflow: the call has no defined result. -/
theorem mergesortlist_covers_overflow_counterexample :
    nvecOf 4294967296 4 = some 1073741824 ∧
      3 * 1073741824 ≤ (List.replicate (3 * 1073741824 + 1) (7 : Int)).length ∧
      mergesortlist { invec := List.replicate (3 * 1073741824 + 1) 7,
                      inoutvec := List.replicate (3 * 1073741824 + 1) 7 }
        ((3 : Nat) : Int) 4 4294967296 (fun _ => 0) = none :=
  ⟨by decide, by rw [List.length_replicate]; exact Nat.le_succ _,
    mergesortlist_overflow _ ((3 : Nat) : Int) 4 4294967296 _ 1073741824 (by decide) 2
      (by decide) (by decide)⟩

/-- C17, amended: for every count `c` and every list length `nvec` derived from the extents
with `c*nvec ≤ 2^31`, so that the offsets `ilist*nvec+i` fit the `int` they are computed in,
and operands of at least `c*nvec` cells, `mergesortlist` returns, `inoutvec` has the length
it had, for every `k < c` its list at offset `k*nvec` equals `mergelist` of the lists of
`invec` and of the original `inoutvec` at that offset, every cell at an index from `c*nvec`
on is unchanged, and with `c = 0` or `nvec = 0` the whole of `inoutvec` is unchanged. -/
theorem mergesortlist_covers (c nvec : Nat) (ops : Operands) (intextent listextent : Int)
    (junk : Nat → Int) (hnvec : nvecOf listextent intextent = some (nvec : Int))
    (hbd : c * nvec ≤ 2 ^ 31)
    (hin : c * nvec ≤ ops.invec.length) (hio : c * nvec ≤ ops.inoutvec.length) :
    ∃ res, mergesortlist ops (c : Int) intextent listextent junk = some res ∧
      res.inoutvec.length = ops.inoutvec.length ∧
      (∀ k, k < c → ∀ d : List Int, d.length = nvec →
        mergelist d (slice ops.invec (k * nvec) nvec) (slice ops.inoutvec (k * nvec) nvec) nvec =
          some (slice res.inoutvec (k * nvec) nvec)) ∧
      (∀ idx, c * nvec ≤ idx → res.inoutvec[idx]? = ops.inoutvec[idx]?) ∧
      (c = 0 ∨ nvec = 0 → res.inoutvec = ops.inoutvec) := by
  obtain ⟨res, hres, _, hlen, hsl, hun⟩ := mergesortlist_spec ops (c : Int) intextent listextent
    junk nvec hnvec (by simpa using hin) (by simpa using hio) (by simpa using hbd)
  simp only [Int.toNat_ofNat] at hsl hun
  refine ⟨res, hres, hlen, ?_, hun, ?_⟩
  · intro k hk d hd
    have hk1 : (k + 1) * nvec ≤ c * nvec := Nat.mul_le_mul_right nvec hk
    rw [hsl k hk]
    exact mergelist_slices d ops.invec ops.inoutvec nvec k hd (by omega) (by omega)
  · intro h0
    have hz : c * nvec = 0 := by
      rcases h0 with h | h <;> simp [h]
    apply List.ext_getElem?
    intro idx
    exact hun idx (by omega)

theorem mergesortlist_covers_witness :
    ∃ res, mergesortlist { invec := [5, 3, 4, 2, 9], inoutvec := [6, 1, 7, 0, 8] }
        ((2 : Nat) : Int) 4 8 (fun _ => 0) = some res ∧
      res.inoutvec.length = ([6, 1, 7, 0, 8] : List Int).length ∧
      (∀ k, k < 2 → ∀ d : List Int, d.length = 2 →
        mergelist d (slice [5, 3, 4, 2, 9] (k * 2) 2) (slice [6, 1, 7, 0, 8] (k * 2) 2) 2 =
          some (slice res.inoutvec (k * 2) 2)) ∧
      (∀ idx, 2 * 2 ≤ idx → res.inoutvec[idx]? = ([6, 1, 7, 0, 8] : List Int)[idx]?) ∧
      ((2 : Nat) = 0 ∨ (2 : Nat) = 0 → res.inoutvec = [6, 1, 7, 0, 8]) :=
  mergesortlist_covers 2 2 { invec := [5, 3, 4, 2, 9], inoutvec := [6, 1, 7, 0, 8] } 4 8
    (fun _ => 0) (by decide) (by decide) (by decide) (by decide)

/-- C18: sortedness is needed for commutativity. With `n = 2`, `a = [3, 7]` (not
descending) and `b = [3, 1]`, `mergelist` gives `[3, 3]` for `a`, `b` and `[3, 7]` for `b`,
`a`, whatever the destinations `[x, y]` and `[u, v]` hold. -/
theorem mergelist_not_comm_unsorted (x y u v : Int) :
    mergelist [x, y] [3, 7] [3, 1] 2 = some [3, 3] ∧
      mergelist [u, v] [3, 1] [3, 7] 2 = some [3, 7] ∧
      mergelist [x, y] [3, 7] [3, 1] 2 ≠ mergelist [u, v] [3, 1] [3, 7] 2 ∧
      ¬ ([3, 7] : List Int).Sorted (fun p q => p ≥ q) := by
  have h1 : mergelist [x, y] [3, 7] [3, 1] 2 = some [3, 3] := by
    rw [mergelist_dest [x, y] [0, 0] [3, 7] [3, 1] 2 rfl rfl]; decide
  have h2 : mergelist [u, v] [3, 1] [3, 7] 2 = some [3, 7] := by
    rw [mergelist_dest [u, v] [0, 0] [3, 1] [3, 7] 2 rfl rfl]; decide
  refine ⟨h1, h2, ?_, by decide⟩
  rw [h1, h2]
  decide

end MergeSortList
